import Mathlib

/-!
Verification development for the my_doa direction-of-arrival engine.

Shallow embedding of the core components referenced by the specification:
angle utilities (src/my_doa/utils/math_utils.py), the peak extractor
(src/my_doa/doa/peak_extractor.py), the MCRA noise estimator
(src/my_doa/dsp/mcra.py), the streaming STFT (src/my_doa/dsp/stft.py),
the multi-target tracker (src/my_doa/doa/tracker.py), the TDOA lookup table
(src/my_doa/geometry/tdoa_lut.py) and the track-aware candidate merge of the
pipeline (src/my_doa/pipeline/doa_pipeline.py).

Python floats are modelled by exact rationals wherever the claims are about
control flow, counters and comparisons, and by real numbers where the source
computes with trigonometric functions.  NaN/Inf sanitization steps of the
source are no-ops on these exact number types and are noted in comments.
-/

/- ------------------------------------------------------------------ -/
/- Angle utilities, from src/my_doa/utils/math_utils.py (rational).    -/
/- ------------------------------------------------------------------ -/

/-- Floating-point modulo with the sign of the divisor, as computed by the
numpy percent operator: x % y = x - y * floor (x / y). -/
def fmod (x y : ℚ) : ℚ := x - y * ⌊x / y⌋

/-- wrap_angle_deg: wrap to the interval from -180 inclusive to 180
exclusive, source line: (a + 180.0) % 360.0 - 180.0. -/
def wrapDeg (x : ℚ) : ℚ := fmod (x + 180) 360 - 180

/-- wrap_angle_deg_0_360: wrap to the interval from 0 inclusive to 360
exclusive, source line: a % 360.0. -/
def wrap360 (x : ℚ) : ℚ := fmod x 360

/-- circular_distance_deg a b: signed shortest distance from a to b,
source: wrap_angle_deg (b - a). -/
def circDist (a b : ℚ) : ℚ := wrapDeg (b - a)

/-- np.clip with both bounds. -/
def clip (x lo hi : ℚ) : ℚ := min (max x lo) hi

/- ------------------------------------------------------------------ -/
/- Peak extractor, from src/my_doa/doa/peak_extractor.py.              -/
/- ------------------------------------------------------------------ -/

/-- DOACandidate dataclass: azimuth in degrees, SRP power, grid index. -/
structure DOACandidate where
  azimuthDeg : ℚ
  power : ℚ
  index : Nat
deriving DecidableEq

/-- PeakExtractor configuration (constructor arguments). -/
structure PECfg where
  maxSources : Nat
  minPower : ℚ
  suppressionDeg : ℚ

/-- Helper for np.argmax: scan remaining values keeping the first maximal
index (numpy returns the first occurrence of the maximum). -/
def argmaxGo : List ℚ → Nat → Nat → ℚ → Nat
  | [], _, bi, _ => bi
  | v :: rest, i, bi, bv =>
      if bv < v then argmaxGo rest (i + 1) i v else argmaxGo rest (i + 1) bi bv

/-- np.argmax over a list of rationals (first index of the maximum). -/
def argmax : List ℚ → Nat
  | [] => 0
  | v :: rest => argmaxGo rest 1 0 v

/-- PeakExtractor._suppress_neighborhood: zero out every grid index whose
absolute circular distance to the chosen center angle is at most
suppression_deg; other entries are copied unchanged. -/
def suppress (cfg : PECfg) (grid P : List ℚ) (idxCenter : Nat) : List ℚ :=
  let center := grid.getD idxCenter 0
  List.zipWith
    (fun g p => if |circDist center g| ≤ cfg.suppressionDeg then 0 else p)
    grid P

/-- Main loop of PeakExtractor.extract: up to max_sources iterations, take
argmax of the working copy, stop when the peak power falls below min_power,
otherwise emit a candidate (azimuth wrapped to 0..360) and suppress its
circular neighborhood.  The NaN/Inf sanitization of the source is a no-op on
rationals. -/
def extractLoop (cfg : PECfg) (grid : List ℚ) : Nat → List ℚ → List DOACandidate
  | 0, _ => []
  | n + 1, work =>
      if work.isEmpty then []
      else
        let idx := argmax work
        let peak := work.getD idx 0
        if peak < cfg.minPower then []
        else
          { azimuthDeg := wrap360 (grid.getD idx 0), power := peak, index := idx } ::
            extractLoop cfg grid n (suppress cfg grid work idx)

/-- PeakExtractor.extract: run the loop and sort candidates by descending
power (stable, as Python list.sort). -/
def extract (cfg : PECfg) (grid P : List ℚ) : List DOACandidate :=
  List.insertionSort (fun a b => b.power ≤ a.power) (extractLoop cfg grid cfg.maxSources P)

/- ------------------------------------------------------------------ -/
/- MCRA noise estimator, from src/my_doa/dsp/mcra.py.                  -/
/- ------------------------------------------------------------------ -/

/-- MCRA constructor arguments together with the constraints the constructor
enforces (it raises unless 0 < alpha_s < 1 and minima_window >= 1). -/
structure MCRACfg where
  nFreq : Nat
  alphaS : ℚ
  minimaWindow : Nat
  delta : ℚ
  alphaD : ℚ
  epsFloor : ℚ
  alphaS_pos : 0 < alphaS
  alphaS_lt_one : alphaS < 1
  minimaWindow_pos : 1 ≤ minimaWindow

/-- Mutable state of the MCRA estimator after initialization. -/
structure MCRAState where
  S : List ℚ
  Nhat : List ℚ
  minBuffer : List (List ℚ)
  minIndex : Nat
  pSpeech : List ℚ
deriving DecidableEq

/-- The instantaneous speech-presence value of MCRA.update, as the code
computes it: p = clip(R - 1, 0, None); p = clip(p / (p + 1), 0, 1). -/
def mcraPhatCode (R : ℚ) : ℚ :=
  let p := max (R - 1) 0
  clip (p / (p + 1)) 0 1

/-- The instantaneous speech-presence value as the specification states it:
p = clip((R - 1) / R, 0, 1).  (Division by zero yields zero in this exact
model; in floating point R = 0 gives -inf which the clip also maps to 0.) -/
def mcraPhatSpec (R : ℚ) : ℚ := clip ((R - 1) / R) 0 1

/-- Column-wise minimum of the minima ring (np.min along axis 0). -/
def columnMin : List (List ℚ) → List ℚ
  | [] => []
  | r :: rs => rs.foldl (List.zipWith min) r

/-- MCRA.update.  Returns none when the input length mismatches n_freq (the
source raises ValueError).  First call initializes; steady state smooths the
spectrum, updates the speech-presence probability, conditionally writes the
minima ring, and applies the 0.8/0.2 EMA to the clamped minima estimate.
Division is total on rationals; the nan_to_num calls of the source are
no-ops here. -/
def mcraUpdate (cfg : MCRACfg) (st : Option MCRAState) (P0 : List ℚ) :
    Option (MCRAState × List ℚ) :=
  if P0.length ≠ cfg.nFreq then none
  else
    let P := P0.map (fun x => max x 0)
    match st with
    | none =>
        let S := P
        let Nh := S.map (fun s => max (cfg.delta * s) cfg.epsFloor)
        some ({ S := S, Nhat := Nh, minBuffer := List.replicate cfg.minimaWindow S,
                minIndex := 0, pSpeech := List.replicate cfg.nFreq 0 }, Nh)
    | some st =>
        let S := List.zipWith (fun s p => cfg.alphaS * s + (1 - cfg.alphaS) * p) st.S P
        let R := List.zipWith (fun p nh => p / (nh + cfg.epsFloor)) P st.Nhat
        let phat := R.map mcraPhatCode
        let pSp := List.zipWith (fun old ph => cfg.alphaD * old + (1 - cfg.alphaD) * ph)
          st.pSpeech phat
        let row := st.minBuffer.getD st.minIndex []
        let row' := List.zipWith (fun m (sr : ℚ × ℚ) => if m then sr.1 else sr.2)
          (pSp.map (fun x => decide (x < 1/2))) (S.zip row)
        let buffer' := st.minBuffer.set st.minIndex row'
        let minIndex' := (st.minIndex + 1) % cfg.minimaWindow
        let minVals := columnMin buffer'
        let Nnew := minVals.map (fun m => max (cfg.delta * m) cfg.epsFloor)
        let Nh := List.zipWith (fun old nn => (4/5 : ℚ) * old + (1/5 : ℚ) * nn) st.Nhat Nnew
        some ({ S := S, Nhat := Nh, minBuffer := buffer', minIndex := minIndex',
                pSpeech := pSp }, Nh)

/-- Fold MCRA.update over a sequence of power spectra starting from the
uninitialized state.  The outer Option is the error channel (shape
mismatch); the inner Option is the uninitialized-state marker. -/
def mcraFoldFrom (cfg : MCRACfg) (acc : Option (Option MCRAState))
    (inputs : List (List ℚ)) : Option (Option MCRAState) :=
  inputs.foldl
    (fun acc P => acc.bind (fun st => (mcraUpdate cfg st P).map (fun r => some r.1))) acc

/-- Run MCRA from its freshly constructed (uninitialized) state. -/
def mcraFold (cfg : MCRACfg) (inputs : List (List ℚ)) : Option (Option MCRAState) :=
  mcraFoldFrom cfg (some none) inputs

/- ------------------------------------------------------------------ -/
/- Linear interpolation, from src/my_doa/utils/math_utils.py.          -/
/- ------------------------------------------------------------------ -/

/-- One output slot of linear_interp_1d: clip the position into the valid
index range, split into integer part and fraction, and blend the two
adjacent samples (i1 = min(i0 + 1, N - 1)). -/
def linearInterpAt (x : List ℚ) (pos : ℚ) : ℚ :=
  let N := x.length
  let p := min (max pos 0) ((N : ℚ) - 1)
  let i0 : Nat := (⌊p⌋).toNat
  let i1 : Nat := min (i0 + 1) (N - 1)
  let frac : ℚ := p - (⌊p⌋ : ℚ)
  (1 - frac) * x.getD i0 0 + frac * x.getD i1 0

/-- linear_interp_1d: none when x is empty (the source raises ValueError),
otherwise interpolate every position. -/
def linearInterp1d (x positions : List ℚ) : Option (List ℚ) :=
  if x.isEmpty then none else some (positions.map (linearInterpAt x))

/- ------------------------------------------------------------------ -/
/- Streaming STFT, from src/my_doa/dsp/stft.py.                        -/
/- ------------------------------------------------------------------ -/

/-- STFTProcessor configuration together with the constraint checked by the
constructor (it raises unless 0 < hop_size <= frame_size).  A multichannel
sample column (one value per microphone) is modelled by an arbitrary type
alpha, which also makes the channel count constant across calls. -/
structure STFTCfg where
  frameSize : Nat
  hopSize : Nat
  hop_pos : 0 < hopSize
  hop_le : hopSize ≤ frameSize

/-- The while loop of STFTProcessor.process_block: as long as the buffer
holds at least frame_size columns, emit the first frame_size columns and
slide the buffer forward by hop_size.  We model the emitted frame by its
time-domain sample columns; the source then applies the analysis window and
the real FFT to it, a per-frame deterministic map, so equality of emitted
segments transfers to equality of emitted spectra. -/
def emitFrames (cfg : STFTCfg) (buf : List α) : List (List α) × List α :=
  if h : cfg.frameSize ≤ buf.length then
    let rest := emitFrames cfg (buf.drop cfg.hopSize)
    (buf.take cfg.frameSize :: rest.1, rest.2)
  else ([], buf)
termination_by buf.length
decreasing_by
  simp only [List.length_drop]
  have h1 := cfg.hop_pos
  have h2 := cfg.hop_le
  omega

/-- STFTProcessor.process_block on the buffer state: an empty block returns
no frames and leaves the buffer untouched (the source returns early), a
nonempty block is appended along time before the emission loop runs.  The
initial None buffer of the source is the empty list here. -/
def processBlock (cfg : STFTCfg) (buf block : List α) : List (List α) × List α :=
  if block.isEmpty then ([], buf) else emitFrames cfg (buf ++ block)

/-- Feed a sequence of blocks through one STFTProcessor, collecting all
emitted frames in order. -/
def stftRun (cfg : STFTCfg) (blocks : List (List α)) : List (List α) × List α :=
  blocks.foldl (fun acc b => let r := processBlock cfg acc.2 b; (acc.1 ++ r.1, r.2)) ([], [])

/-- The frame-count formula of the specification: floor((T - frame)/hop) + 1
frames once T is at least frame, none before. -/
def nFrames (cfg : STFTCfg) (T : Nat) : Nat :=
  if cfg.frameSize ≤ T then (T - cfg.frameSize) / cfg.hopSize + 1 else 0

/-- The frames of a complete sample stream: frame i covers the samples
starting at offset i * hop. -/
def framesOf (cfg : STFTCfg) (S : List α) : List (List α) :=
  (List.range (nFrames cfg S.length)).map
    (fun i => (S.drop (i * cfg.hopSize)).take cfg.frameSize)

/-- The unconsumed tail of a complete sample stream. -/
def leftover (cfg : STFTCfg) (S : List α) : List α :=
  S.drop (nFrames cfg S.length * cfg.hopSize)

/- ------------------------------------------------------------------ -/
/- Multi-target tracker, from src/my_doa/doa/tracker.py.               -/
/- ------------------------------------------------------------------ -/

/-- A 2 by 2 covariance matrix, rows (a b) and (c d). -/
structure Mat2 where
  a : ℚ
  b : ℚ
  c : ℚ
  d : ℚ
deriving DecidableEq

/-- TrackState dataclass. -/
structure Track where
  id : Nat
  theta : ℚ
  thetaDot : ℚ
  cov : Mat2
  age : Nat
  misses : Nat
  hits : Nat
  lastUpdateFrame : Nat
  lowConfidenceFrames : Nat
deriving DecidableEq

/-- PendingTrack dataclass. -/
structure Pending where
  theta : ℚ
  power : ℚ
  age : Nat
  hits : Nat
  misses : Nat
deriving DecidableEq

/-- TrackerConfig dataclass. -/
structure TrackerCfg where
  dt : ℚ
  processNoise : ℚ
  measurementNoise : ℚ
  gateDeg : ℚ
  birthFrames : Nat
  deathFrames : Nat
  pendingPowerThreshold : ℚ
  pendingMaxAge : Nat
  minConfidenceForPromotion : ℚ
  minHitRateForPromotion : ℚ
  minConfidenceToKeep : ℚ
  lowConfFramesBeforeRemoval : Nat

/-- MultiTargetTracker state: tracks in dict insertion order, the next fresh
id, and the pending-track list. -/
structure TrackerState where
  tracks : List Track
  nextId : Nat
  pending : List Pending

/-- The tracker as constructed: no tracks, next_id = 1, no pendings. -/
def trackerInit : TrackerState := { tracks := [], nextId := 1, pending := [] }

/-- TrackState.compute_confidence. -/
def trackConfidence (t : Track) : ℚ :=
  if t.age = 0 then 0
  else
    let hitRate : ℚ := (t.hits : ℚ) / (t.age : ℚ)
    let recent : ℚ := if t.misses ≤ 2 then 1 else if t.misses ≤ 5 then 1/2 else 1/10
    let ageFactor : ℚ := min ((t.age : ℚ) / 10) 1
    clip (hitRate * recent * ageFactor) 0 1

/-- PendingTrack.compute_confidence. -/
def pendingConfidence (p : Pending) : ℚ :=
  if p.age = 0 then 0
  else
    let hitRate : ℚ := (p.hits : ℚ) / (p.age : ℚ)
    let recent : ℚ := if p.misses ≤ 3 then 1 else max 0 (1 - ((p.misses : ℚ) - 3) * (1/5))
    let ageFactor : ℚ := min ((p.age : ℚ) / 10) 1
    clip (hitRate * recent * ageFactor) 0 1

/-- Process-noise matrix Q built from q = process_noise squared. -/
def qMat (cfg : TrackerCfg) : Mat2 :=
  let q := cfg.processNoise ^ 2
  { a := (1/4) * cfg.dt * cfg.dt * q, b := (1/2) * cfg.dt * q,
    c := (1/2) * cfg.dt * q, d := q }

/-- MultiTargetTracker._predict_all on one track: constant-velocity
prediction x = F x, P = F P F_transpose + Q, with the angle wrapped. -/
def predictTrack (cfg : TrackerCfg) (t : Track) : Track :=
  let p := t.cov
  let q := qMat cfg
  { t with
    theta := wrapDeg (t.theta + cfg.dt * t.thetaDot)
    cov :=
      { a := p.a + cfg.dt * p.c + cfg.dt * (p.b + cfg.dt * p.d) + q.a
        b := p.b + cfg.dt * p.d + q.b
        c := p.c + cfg.dt * p.d + q.c
        d := p.d + q.d } }

/-- MultiTargetTracker._kalman_update: scalar innovation wrapped to the
shortest signed angle, gain K = P H_transpose / S with S = P00 + R. -/
def kalmanUpdate (cfg : TrackerCfg) (t : Track) (thetaMeas : ℚ) : Track :=
  let p := t.cov
  let y := circDist 0 (thetaMeas - t.theta)
  let s := p.a + cfg.measurementNoise ^ 2
  let k0 := p.a / s
  let k1 := p.c / s
  { t with
    theta := wrapDeg (t.theta + k0 * y)
    thetaDot := t.thetaDot + k1 * y
    cov := { a := (1 - k0) * p.a, b := (1 - k0) * p.b,
             c := p.c - k1 * p.a, d := p.d - k1 * p.b } }

/-- Inner loop of _associate_detections: find among the still unused
detections the one minimizing the absolute circular distance to the track
angle (first minimum wins, strict improvement required). -/
def bestDet (theta : ℚ) (dets : List (ℚ × ℚ)) (used : List Bool) : Option (Nat × ℚ) :=
  (dets.enum).foldl
    (fun acc di =>
      if used.getD di.1 false then acc
      else
        let dist := |circDist theta di.2.1|
        match acc with
        | none => some (di.1, dist)
        | some best => if dist < best.2 then some (di.1, dist) else best)
    none

/-- MultiTargetTracker._associate_detections: greedy nearest-neighbor in
track insertion order with gating; returns the assignment list
(track id, detection index) and the used-detection mask. -/
def associate (cfg : TrackerCfg) (tracks : List Track) (dets : List (ℚ × ℚ)) :
    List (Nat × Nat) × List Bool :=
  tracks.foldl
    (fun acc tr =>
      match bestDet tr.theta dets acc.2 with
      | none => acc
      | some best =>
          if best.2 ≤ cfg.gateDeg then (acc.1 ++ [(tr.id, best.1)], acc.2.set best.1 true)
          else acc)
    ([], List.replicate dets.length false)

/-- Indices of detections left unassigned, in ascending order. -/
def unusedIndices (used : List Bool) : List Nat :=
  (used.enum.filter (fun p => !p.2)).map (fun p => p.1)

/-- MultiTargetTracker._update_assigned: Kalman-update and credit the
assigned tracks, age the rest. -/
def updateAssigned (cfg : TrackerCfg) (tracks : List Track)
    (assigns : List (Nat × Nat)) (dets : List (ℚ × ℚ)) (frame : Nat) : List Track :=
  tracks.map
    (fun t =>
      match assigns.lookup t.id with
      | some detIdx =>
          let meas := dets.getD detIdx (0, 0)
          let t' := kalmanUpdate cfg t meas.1
          { t' with hits := t'.hits + 1, misses := 0, age := t'.age + 1,
                    lastUpdateFrame := frame }
      | none => { t with misses := t.misses + 1, age := t.age + 1 })

/-- First-match update of the pending list in _update_pending: scan the
pendings in order and update the first one within gate_deg of the detection;
none when no pending matches. -/
def tryMatchPending (cfg : TrackerCfg) (theta pw : ℚ) :
    List Pending → Option (List Pending)
  | [] => none
  | p :: rest =>
      if |circDist p.theta theta| ≤ cfg.gateDeg then
        some ({ p with theta := theta, power := max p.power pw,
                       hits := p.hits + 1, misses := 0 } :: rest)
      else
        match tryMatchPending cfg theta pw rest with
        | some rest' => some (p :: rest')
        | none => none

/-- The unassigned-detection loop of _update_pending, after every pending
was aged: drop low-power detections, update the first matching pending, and
otherwise create a new pending unless an active track lies within
1.5 times gate_deg.  Returns the updated existing pendings and the pendings
newly created this frame (the source keeps the latter in new_pending and
never matches detections against them). -/
def pendingMatchPhase (cfg : TrackerCfg) (tracks : List Track)
    (pending : List Pending) (unassigned : List Nat) (dets : List (ℚ × ℚ)) :
    List Pending × List Pending :=
  unassigned.foldl
    (fun acc detIdx =>
      let det := dets.getD detIdx (0, 0)
      if det.2 < cfg.pendingPowerThreshold then acc
      else
        match tryMatchPending cfg det.1 det.2 acc.1 with
        | some pend' => (pend', acc.2)
        | none =>
            if tracks.any (fun tr => |circDist tr.theta det.1| ≤ cfg.gateDeg * (3/2)) then acc
            else (acc.1, acc.2 ++ [{ theta := det.1, power := det.2,
                                     age := 1, hits := 1, misses := 0 }]))
    (pending, [])

/-- MultiTargetTracker._create_track: wrap the angle to the internal range,
zero velocity, diagonal initial covariance, counters zeroed, fresh id. -/
def mkTrack (cfg : TrackerCfg) (nid : Nat) (theta : ℚ) : Track :=
  { id := nid, theta := wrapDeg theta, thetaDot := 0,
    cov := { a := cfg.measurementNoise ^ 2, b := 0, c := 0, d := cfg.processNoise ^ 2 },
    age := 0, misses := 0, hits := 0, lastUpdateFrame := 0, lowConfidenceFrames := 0 }

/-- The promote-or-expire loop of _update_pending: a pending old enough is
promoted when confidence and hit rate pass the thresholds (appending a fresh
track and bumping next_id), kept while young enough, and discarded once past
pending_track_max_age.  Returns surviving pendings, the track list with
promotions appended, and the new next_id. -/
def promoteLoop (cfg : TrackerCfg) :
    List Pending → List Track → Nat → List Pending × List Track × Nat
  | [], tracks, nid => ([], tracks, nid)
  | p :: rest, tracks, nid =>
      if cfg.birthFrames ≤ p.age then
        let conf := pendingConfidence p
        let hitRate : ℚ := if 0 < p.age then (p.hits : ℚ) / (p.age : ℚ) else 0
        if cfg.minConfidenceForPromotion ≤ conf ∧ cfg.minHitRateForPromotion ≤ hitRate then
          promoteLoop cfg rest (tracks ++ [mkTrack cfg nid p.theta]) (nid + 1)
        else if p.age ≤ cfg.pendingMaxAge then
          let r := promoteLoop cfg rest tracks nid
          (p :: r.1, r.2)
        else promoteLoop cfg rest tracks nid
      else if cfg.pendingMaxAge < p.age then promoteLoop cfg rest tracks nid
      else
        let r := promoteLoop cfg rest tracks nid
        (p :: r.1, r.2)

/-- One track's fate in _age_and_prune: removal on too many misses, on the
aggressive misses/age rule, or after enough consecutive low-confidence
frames (threshold shrunk to 2 when misses reach 5); otherwise the
low-confidence counter is updated and the track kept. -/
def pruneTrack (cfg : TrackerCfg) (t : Track) : Option Track :=
  if cfg.deathFrames < t.misses then none
  else if 10 ≤ t.misses ∧ 15 < t.age then none
  else
    let conf := trackConfidence t
    if conf < cfg.minConfidenceToKeep then
      let t' := { t with lowConfidenceFrames := t.lowConfidenceFrames + 1 }
      let thr := if 5 ≤ t.misses then 2 else cfg.lowConfFramesBeforeRemoval
      if thr ≤ t'.lowConfidenceFrames then none else some t'
    else some { t with lowConfidenceFrames := 0 }

/-- MultiTargetTracker._age_and_prune over the whole track list. -/
def agePrune (cfg : TrackerCfg) (tracks : List Track) : List Track :=
  tracks.filterMap (pruneTrack cfg)

/-- MultiTargetTracker.step: predict, associate, update assigned, run the
pending/birth logic, then age and prune. -/
def trackerStep (cfg : TrackerCfg) (st : TrackerState) (dets : List (ℚ × ℚ))
    (frame : Nat) : TrackerState :=
  let tracks1 := st.tracks.map (predictTrack cfg)
  let assoc := associate cfg tracks1 dets
  let unassigned := unusedIndices assoc.2
  let tracks2 := updateAssigned cfg tracks1 assoc.1 dets frame
  let aged := st.pending.map (fun p => { p with age := p.age + 1, misses := p.misses + 1 })
  let matched := pendingMatchPhase cfg tracks2 aged unassigned dets
  let promoted := promoteLoop cfg (matched.1 ++ matched.2) tracks2 st.nextId
  { tracks := agePrune cfg promoted.2.1, nextId := promoted.2.2, pending := promoted.1 }

/-- Run the tracker over a list of (detections, frame index) inputs. -/
def runSteps (cfg : TrackerCfg) (st : TrackerState)
    (inputs : List (List (ℚ × ℚ) × Nat)) : TrackerState :=
  inputs.foldl (fun s inp => trackerStep cfg s inp.1 inp.2) st

/-- Run the tracker over frames with no detections at all (detections have
ceased), one step per listed frame index. -/
def runEmpty (cfg : TrackerCfg) (st : TrackerState) (frames : List Nat) : TrackerState :=
  frames.foldl (fun s f => trackerStep cfg s [] f) st

/-- The ids of the currently live tracks, in insertion order. -/
def idsOf (st : TrackerState) : List Nat := st.tracks.map Track.id

/-- The tracker data invariant: live track ids strictly increase along the
insertion order and all lie below next_id. -/
def TrackerInv (st : TrackerState) : Prop :=
  List.Pairwise (· < ·) (idsOf st) ∧ ∀ i ∈ idsOf st, i < st.nextId

/-- The default tracker configuration of the source (dt chosen as 1 second
for concrete runs). -/
def cfgDefault : TrackerCfg :=
  { dt := 1, processNoise := 5, measurementNoise := 5, gateDeg := 20,
    birthFrames := 3, deathFrames := 10, pendingPowerThreshold := 3/100,
    pendingMaxAge := 8, minConfidenceForPromotion := 1/5,
    minHitRateForPromotion := 2/5, minConfidenceToKeep := 1/10,
    lowConfFramesBeforeRemoval := 6 }

/-- A configuration with fast births and death_frames = 2, with the
confidence-based removals disabled, used to exhibit the death-bound
off-by-one. -/
def cfgFastBirth : TrackerCfg :=
  { dt := 1, processNoise := 5, measurementNoise := 5, gateDeg := 20,
    birthFrames := 2, deathFrames := 2, pendingPowerThreshold := 0,
    pendingMaxAge := 8, minConfidenceForPromotion := 0,
    minHitRateForPromotion := 0, minConfidenceToKeep := 0,
    lowConfFramesBeforeRemoval := 6 }

/-- The same configuration with death_frames = 0, used as a witness run. -/
def cfgFastDeath : TrackerCfg :=
  { dt := 1, processNoise := 5, measurementNoise := 5, gateDeg := 20,
    birthFrames := 2, deathFrames := 0, pendingPowerThreshold := 0,
    pendingMaxAge := 8, minConfidenceForPromotion := 0,
    minHitRateForPromotion := 0, minConfidenceToKeep := 0,
    lowConfFramesBeforeRemoval := 6 }

/- ------------------------------------------------------------------ -/
/- Real-valued angle utilities for the trigonometric components.       -/
/- ------------------------------------------------------------------ -/

/-- Floating-point modulo on reals (numpy percent operator). -/
noncomputable def fmodR (x y : ℝ) : ℝ := x - y * ⌊x / y⌋

/-- wrap_angle_deg over the reals. -/
noncomputable def wrapDegR (x : ℝ) : ℝ := fmodR (x + 180) 360 - 180

/-- wrap_angle_deg_0_360 over the reals. -/
noncomputable def wrap360R (x : ℝ) : ℝ := fmodR x 360

/-- circular_distance_deg over the reals. -/
noncomputable def circDistR (a b : ℝ) : ℝ := wrapDegR (b - a)

/-- deg2rad (math.pi / 180 scaling). -/
noncomputable def deg2radR (x : ℝ) : ℝ := x * (Real.pi / 180)

/-- rad2deg (180 / math.pi scaling). -/
noncomputable def rad2degR (x : ℝ) : ℝ := x * (180 / Real.pi)

/-- np.arctan2 y x, realized as the argument of the complex number with
real part x and imaginary part y; both have range from -pi exclusive to pi
inclusive and agree on every quadrant and both axes, with atan2 0 0 = 0. -/
noncomputable def atan2 (y x : ℝ) : ℝ := Complex.arg ⟨x, y⟩

/- ------------------------------------------------------------------ -/
/- TDOA lookup table, from src/my_doa/geometry/tdoa_lut.py.            -/
/- ------------------------------------------------------------------ -/

/-- A 3D point (mic position in meters). -/
structure Vec3 where
  x : ℝ
  y : ℝ
  z : ℝ

/-- Euclidean dot product of two 3D vectors. -/
noncomputable def dot3 (a b : Vec3) : ℝ := a.x * b.x + a.y * b.y + a.z * b.z

/-- Componentwise difference r_i - r_j. -/
noncomputable def sub3 (a b : Vec3) : Vec3 := { x := a.x - b.x, y := a.y - b.y, z := a.z - b.z }

/-- TDOALUT._compute_unit_vectors: the unit direction for one azimuth grid
angle in degrees, u(theta) = (cos theta, sin theta, 0) with theta converted
by np.deg2rad. -/
noncomputable def unitVec (thetaDeg : ℝ) : Vec3 :=
  { x := Real.cos (deg2radR thetaDeg), y := Real.sin (deg2radR thetaDeg), z := 0 }

/-- TDOALUT._precompute_tdoa, far-field branch, delay in seconds for pair
(i, j) at grid angle index a: proj = u(theta_a) dot (r_i - r_j);
tau_sec = -proj / c. -/
noncomputable def delaySecondsCode (pos : Nat → Vec3) (c : ℝ) (grid : Nat → ℝ)
    (i j a : Nat) : ℝ :=
  -(dot3 (unitVec (grid a)) (sub3 (pos i) (pos j))) / c

/-- TDOALUT._precompute_tdoa: delay in fractional samples,
tau_samp = tau_sec * fs. -/
noncomputable def delaySamplesCode (pos : Nat → Vec3) (c fs : ℝ) (grid : Nat → ℝ)
    (i j a : Nat) : ℝ :=
  delaySecondsCode pos c grid i j a * fs

/-- The far-field TDOA formula as the specification writes it:
tau_ij(theta) = -((r_i - r_j) dot u(theta)) / c with
u(theta) = (cos theta, sin theta, 0). -/
noncomputable def tauSpec (pos : Nat → Vec3) (c : ℝ) (grid : Nat → ℝ)
    (i j a : Nat) : ℝ :=
  -(dot3 (sub3 (pos i) (pos j)) (unitVec (grid a))) / c

/- ------------------------------------------------------------------ -/
/- Track-aware candidate merge, DOAPipeline._merge_candidates_near_tracks
   from src/my_doa/pipeline/doa_pipeline.py.                           -/
/- ------------------------------------------------------------------ -/

/-- A DOA candidate with real-valued azimuth and power, as consumed by the
pipeline merge. -/
structure RCand where
  azimuthDeg : ℝ
  power : ℝ
  index : Nat

/-- The track fields the merge reads: id and internal azimuth. -/
structure RTrack where
  id : Nat
  theta : ℝ

/-- Nearest active track to a candidate azimuth: iterate the track map in
insertion order keeping the strictly closest track (ties to the first). -/
noncomputable def nearestTrack (tracks : List RTrack) (az : ℝ) : Option (Nat × ℝ) :=
  tracks.foldl
    (fun acc tr =>
      let d := |circDistR az (wrap360R tr.theta)|
      match acc with
      | none => some (tr.id, d)
      | some best => if d < best.2 then some (tr.id, d) else acc)
    none

/-- Append a candidate to its track group, creating the group at the end on
first use (Python dict insertion order). -/
def addToGroups (gs : List (Nat × List RCand)) (tid : Nat) (c : RCand) :
    List (Nat × List RCand) :=
  match gs with
  | [] => [(tid, [c])]
  | (i, l) :: rest =>
      if i = tid then (i, l ++ [c]) :: rest else (i, l) :: addToGroups rest tid c

/-- The grouping loop of the merge: each candidate goes to its nearest
track's group when within gate_deg, otherwise to the unassigned list. -/
noncomputable def groupByTrack (tracks : List RTrack) (gate : ℝ) (cands : List RCand) :
    List (Nat × List RCand) × List RCand :=
  cands.foldl
    (fun acc cand =>
      match nearestTrack tracks cand.azimuthDeg with
      | some best =>
          if best.2 ≤ gate then (addToGroups acc.1 best.1 cand, acc.2)
          else (acc.1, acc.2 ++ [cand])
      | none => (acc.1, acc.2 ++ [cand]))
    ([], [])

/-- Python max(group, key=power): the first candidate of maximal power. -/
noncomputable def strongestCand : List RCand → RCand
  | [] => { azimuthDeg := 0, power := 0, index := 0 }
  | h :: t => t.foldl (fun b c => if b.power < c.power then c else b) h

/-- Merging one group as the code does it: a singleton group passes through;
otherwise the azimuth is atan2 of the plain means of sines and cosines
(an unweighted circular mean), wrapped to 0..360, the power is the sum and
the grid index comes from the strongest member. -/
noncomputable def mergeGroupCode (g : List RCand) : RCand :=
  match g with
  | [c] => c
  | _ =>
      let n : ℝ := g.length
      let meanSin := (g.map (fun c => Real.sin (deg2radR c.azimuthDeg))).sum / n
      let meanCos := (g.map (fun c => Real.cos (deg2radR c.azimuthDeg))).sum / n
      { azimuthDeg := wrap360R (rad2degR (atan2 meanSin meanCos))
        power := (g.map RCand.power).sum
        index := (strongestCand g).index }

/-- DOAPipeline._merge_candidates_near_tracks: group candidates by nearest
track within gate_deg, merge each group, and pass unassigned candidates
through unchanged (the source returns the input list untouched when there
are no candidates or no tracks). -/
noncomputable def mergeCode (tracks : List RTrack) (gate : ℝ) (cands : List RCand) :
    List RCand :=
  if cands.isEmpty ∨ tracks.isEmpty then cands
  else
    let grouped := groupByTrack tracks gate cands
    grouped.1.map (fun g => mergeGroupCode g.2) ++ grouped.2

/-- circular_mean_deg from src/my_doa/utils/math_utils.py with an explicit
weight vector: C = sum of w cos, S = sum of w sin, zero when both vanish,
else rad2deg (atan2 S C). -/
noncomputable def circularMeanDeg (angles weights : List ℝ) : ℝ :=
  let C := (List.zipWith (fun w a => w * Real.cos (deg2radR a)) weights angles).sum
  let S := (List.zipWith (fun w a => w * Real.sin (deg2radR a)) weights angles).sum
  if C = 0 ∧ S = 0 then 0 else rad2degR (atan2 S C)

/-- Merging one group as the specification claim states it, reading the
member confidences as their SRP powers (the only per-member confidence
quantity a DOACandidate carries): the azimuth is the confidence-weighted
circular mean of the member angles. -/
noncomputable def mergeGroupSpecWeighted (g : List RCand) : RCand :=
  match g with
  | [c] => c
  | _ =>
      { azimuthDeg := wrap360R (circularMeanDeg (g.map RCand.azimuthDeg) (g.map RCand.power))
        power := (g.map RCand.power).sum
        index := (strongestCand g).index }

/-- The specification claim's merge: weighted circular mean per group. -/
noncomputable def mergeSpecWeighted (tracks : List RTrack) (gate : ℝ) (cands : List RCand) :
    List RCand :=
  if cands.isEmpty ∨ tracks.isEmpty then cands
  else
    let grouped := groupByTrack tracks gate cands
    grouped.1.map (fun g => mergeGroupSpecWeighted g.2) ++ grouped.2

/-- Merging one group with the unweighted circular mean (all weights one),
the amended reading. -/
noncomputable def mergeGroupSpecUnweighted (g : List RCand) : RCand :=
  match g with
  | [c] => c
  | _ =>
      { azimuthDeg := wrap360R (circularMeanDeg (g.map RCand.azimuthDeg)
          (List.replicate g.length 1))
        power := (g.map RCand.power).sum
        index := (strongestCand g).index }

/-- The amended merge: unweighted circular mean per group. -/
noncomputable def mergeSpecUnweighted (tracks : List RTrack) (gate : ℝ) (cands : List RCand) :
    List RCand :=
  if cands.isEmpty ∨ tracks.isEmpty then cands
  else
    let grouped := groupByTrack tracks gate cands
    grouped.1.map (fun g => mergeGroupSpecUnweighted g.2) ++ grouped.2

/- ------------------------------------------------------------------ -/
/- Helper lemmas: rational angle wrapping.                             -/
/- ------------------------------------------------------------------ -/

theorem fmod_360_nonneg (x : ℚ) : 0 ≤ fmod x 360 := by
  have h := Int.floor_le (x / 360)
  have h2 : (360 : ℚ) * ⌊x / 360⌋ ≤ 360 * (x / 360) :=
    mul_le_mul_of_nonneg_left h (by norm_num)
  have h3 : (360 : ℚ) * (x / 360) = x := by ring
  unfold fmod
  linarith

theorem fmod_360_lt (x : ℚ) : fmod x 360 < 360 := by
  have h := Int.lt_floor_add_one (x / 360)
  have h2 : (360 : ℚ) * (x / 360) < 360 * (⌊x / 360⌋ + 1) :=
    mul_lt_mul_of_pos_left h (by norm_num)
  have h3 : (360 : ℚ) * (x / 360) = x := by ring
  unfold fmod
  linarith

theorem wrapDeg_lb (x : ℚ) : -180 ≤ wrapDeg x := by
  have := fmod_360_nonneg (x + 180)
  unfold wrapDeg
  linarith

theorem wrapDeg_ub (x : ℚ) : wrapDeg x < 180 := by
  have := fmod_360_lt (x + 180)
  unfold wrapDeg
  linarith

theorem wrapDeg_add_int (x : ℚ) (k : ℤ) : wrapDeg (x + 360 * k) = wrapDeg x := by
  unfold wrapDeg fmod
  have h : (x + 360 * k + 180) / 360 = (x + 180) / 360 + k := by
    field_simp
    ring
  rw [h, Int.floor_add_int]
  push_cast
  ring

theorem wrapDeg_eq_self (x : ℚ) (h1 : -180 ≤ x) (h2 : x < 180) : wrapDeg x = x := by
  unfold wrapDeg fmod
  have hf : ⌊(x + 180) / 360⌋ = 0 := by
    rw [Int.floor_eq_zero_iff]
    constructor
    · rw [le_div_iff₀ (by norm_num : (0:ℚ) < 360)]
      linarith
    · rw [div_lt_iff₀ (by norm_num : (0:ℚ) < 360)]
      linarith
  rw [hf]
  push_cast
  ring

theorem wrapDeg_shift (x : ℚ) : ∃ k : ℤ, wrapDeg x = x + 360 * k := by
  refine ⟨-⌊(x + 180) / 360⌋, ?_⟩
  unfold wrapDeg fmod
  push_cast
  ring

theorem wrapDeg_neg_abs (x : ℚ) : |wrapDeg (-x)| = |wrapDeg x| := by
  obtain ⟨k, hk⟩ := wrapDeg_shift x
  have hlb := wrapDeg_lb x
  have hub := wrapDeg_ub x
  rcases eq_or_lt_of_le hlb with hb | hb
  · -- wrapDeg x = -180, so -x is congruent to 180 and wraps to -180 as well
    have hx : -x = -wrapDeg x + 360 * k := by linarith [hk]
    rw [hx, wrapDeg_add_int, ← hb]
    have : (-(-180 : ℚ)) = -180 + 360 * (1 : ℤ) := by push_cast; ring
    rw [this, wrapDeg_add_int, wrapDeg_eq_self (-180) (by norm_num) (by norm_num)]
  · have hx : -x = -wrapDeg x + 360 * k := by linarith [hk]
    rw [hx, wrapDeg_add_int,
      wrapDeg_eq_self (-wrapDeg x) (by linarith) (by linarith), abs_neg]

theorem abs_circDist_comm (a b : ℚ) : |circDist a b| = |circDist b a| := by
  unfold circDist
  have h : a - b = -(b - a) := by ring
  rw [h, wrapDeg_neg_abs]

theorem wrap360_shift (x : ℚ) : ∃ k : ℤ, wrap360 x = x + 360 * k := by
  refine ⟨-⌊x / 360⌋, ?_⟩
  unfold wrap360 fmod
  push_cast
  ring

theorem circDist_wrap360_left (a b : ℚ) : circDist (wrap360 a) b = circDist a b := by
  obtain ⟨k, hk⟩ := wrap360_shift a
  unfold circDist
  have h : b - wrap360 a = b - a + 360 * ((-k : ℤ) : ℚ) := by rw [hk]; push_cast; ring
  rw [h, wrapDeg_add_int]

theorem circDist_wrap360_right (a b : ℚ) : circDist a (wrap360 b) = circDist a b := by
  obtain ⟨k, hk⟩ := wrap360_shift b
  unfold circDist
  have h : wrap360 b - a = b - a + 360 * k := by rw [hk]; ring
  rw [h, wrapDeg_add_int]

/- ------------------------------------------------------------------ -/
/- Claim C7: MCRA speech-presence formula equivalence.                 -/
/- ------------------------------------------------------------------ -/

/-- Claim C7 (confirmed): in the steady-state branch of MCRA.update, the
code's two-step formula clip(R-1, 0, inf) / (clip(R-1, 0, inf) + 1), clipped
to the unit interval, equals the specification's clip((R-1)/R, 0, 1) for
every ratio R at least 0. -/
theorem mcra_phat_equiv (R : ℚ) (hR : 0 ≤ R) : mcraPhatCode R = mcraPhatSpec R := by
  simp only [mcraPhatCode, mcraPhatSpec, clip]
  rcases le_or_lt R 1 with h | h
  · rw [max_eq_right (by linarith : R - 1 ≤ 0)]
    rcases eq_or_lt_of_le hR with h0 | h0
    · rw [← h0]
      norm_num
    · have hle : (R - 1) / R ≤ 0 := div_nonpos_of_nonpos_of_nonneg (by linarith) hR
      rw [max_eq_right hle]
      norm_num
  · rw [max_eq_left (by linarith : (0:ℚ) ≤ R - 1)]
    have hR0 : R - 1 + 1 = R := by ring
    rw [hR0]

/-- Witness for C7 at the concrete ratio R = 2. -/
theorem mcra_phat_equiv_witness : (0:ℚ) ≤ 2 ∧ mcraPhatCode 2 = mcraPhatSpec 2 :=
  ⟨by norm_num, mcra_phat_equiv 2 (by norm_num)⟩

/- ------------------------------------------------------------------ -/
/- Claim C8: far-field TDOA lookup table formula.                      -/
/- ------------------------------------------------------------------ -/

/-- Claim C8 (confirmed): for every mic pair (i, j) and azimuth grid angle,
the far-field LUT delay in seconds equals -((r_i - r_j) dot u(theta)) / c
with u(theta) = (cos theta, sin theta, 0), and the delay in samples is the
delay in seconds times the sample rate. -/
theorem tdoa_farfield_formula (pos : Nat → Vec3) (c fs : ℝ) (grid : Nat → ℝ)
    (i j a : Nat) :
    delaySecondsCode pos c grid i j a = tauSpec pos c grid i j a ∧
      delaySamplesCode pos c fs grid i j a = tauSpec pos c grid i j a * fs := by
  constructor
  · unfold delaySecondsCode tauSpec dot3
    ring
  · unfold delaySamplesCode delaySecondsCode tauSpec dot3
    ring

/- ------------------------------------------------------------------ -/
/- Claim C10: linear interpolation totality and clamping.              -/
/- ------------------------------------------------------------------ -/

theorem getD_map_of_lt (f : ℚ → ℚ) (l : List ℚ) (k : Nat) (hk : k < l.length) :
    (l.map f).getD k 0 = f (l.getD k 0) := by
  rw [List.getD_eq_getElem?_getD, List.getD_eq_getElem?_getD, List.getElem?_map,
    List.getElem?_eq_getElem hk]
  rfl

/-- Claim C10 (confirmed): for every nonempty sample array and every finite
positions vector, linear_interp_1d succeeds and each output is a convex
combination of two adjacent in-range samples, with positions below 0 clamped
to the first sample and positions at or beyond N - 1 clamped to the last, so
the SRP scanner's fractional-delay sampling never reads outside the valid
index range however large the LUT delays are. -/
theorem linear_interp_total_clamped (x positions : List ℚ) (hx : x ≠ []) :
    ∃ out, linearInterp1d x positions = some out ∧ out.length = positions.length ∧
      ∀ k, k < positions.length →
        ((∃ i t, i < x.length ∧ 0 ≤ t ∧ t < 1 ∧
            out.getD k 0 =
              (1 - t) * x.getD i 0 + t * x.getD (min (i + 1) (x.length - 1)) 0) ∧
          (positions.getD k 0 ≤ 0 → out.getD k 0 = x.getD 0 0) ∧
          ((x.length : ℚ) - 1 ≤ positions.getD k 0 →
            out.getD k 0 = x.getD (x.length - 1) 0)) := by
  have hxe : x.isEmpty = false := by
    cases x with
    | nil => exact absurd rfl hx
    | cons a l => rfl
  have hN : 0 < x.length := List.length_pos.mpr hx
  have hN1 : (0 : ℚ) ≤ (x.length : ℚ) - 1 := by
    have : (1 : ℚ) ≤ (x.length : ℚ) := by exact_mod_cast hN
    linarith
  refine ⟨positions.map (linearInterpAt x), by simp [linearInterp1d, hxe], by simp, ?_⟩
  intro k hk
  rw [getD_map_of_lt _ _ _ hk]
  set pos := positions.getD k 0 with hpos
  have hple : min (max pos 0) ((x.length : ℚ) - 1) ≤ (x.length : ℚ) - 1 := min_le_right _ _
  have hpge : 0 ≤ min (max pos 0) ((x.length : ℚ) - 1) :=
    le_min (le_max_right _ _) hN1
  set p := min (max pos 0) ((x.length : ℚ) - 1) with hp
  have hfge : (0 : ℤ) ≤ ⌊p⌋ := Int.floor_nonneg.mpr hpge
  have hfle : (⌊p⌋ : ℚ) ≤ (x.length : ℚ) - 1 := le_trans (Int.floor_le p) hple
  have hcast : ((⌊p⌋).toNat : ℚ) = (⌊p⌋ : ℚ) := by
    exact_mod_cast Int.toNat_of_nonneg hfge
  have hilt : (⌊p⌋).toNat < x.length := by
    have h1 : ((⌊p⌋).toNat : ℚ) ≤ (x.length : ℚ) - 1 := by rw [hcast]; exact hfle
    have h2 : ((⌊p⌋).toNat : ℚ) < (x.length : ℚ) := by linarith
    exact_mod_cast h2
  refine ⟨⟨(⌊p⌋).toNat, p - (⌊p⌋ : ℚ), hilt, by linarith [Int.floor_le p],
      by linarith [Int.lt_floor_add_one p], ?_⟩, ?_, ?_⟩
  · simp only [linearInterpAt, ← hp, hcast]
  · intro hneg
    have hmax : max pos 0 = 0 := max_eq_right hneg
    have e1 : min (max pos 0) ((x.length : ℚ) - 1) = ((0 : ℕ) : ℚ) := by
      rw [hmax, min_eq_left hN1]
      norm_num
    simp only [linearInterpAt]
    rw [e1, Int.floor_natCast, Int.toNat_natCast]
    push_cast
    ring
  · intro hbig
    have hmax : max pos 0 = pos := max_eq_left (le_trans hN1 hbig)
    have hcastn : ((x.length : ℚ) - 1) = ((x.length - 1 : ℕ) : ℚ) := by
      rw [Nat.cast_sub hN]
      norm_num
    have e1 : min (max pos 0) ((x.length : ℚ) - 1) = ((x.length - 1 : ℕ) : ℚ) := by
      rw [hmax, min_eq_right hbig, hcastn]
    simp only [linearInterpAt]
    rw [e1, Int.floor_natCast, Int.toNat_natCast,
      min_eq_right (Nat.le_succ (x.length - 1))]
    push_cast
    ring

/-- Witness for C10 at the concrete array [3, 7] and positions [5, -2]. -/
theorem linear_interp_total_clamped_witness :
    ∃ out, linearInterp1d [3, 7] [5, -2] = some out ∧ out.length = ([5, -2] : List ℚ).length ∧
      ∀ k, k < ([5, -2] : List ℚ).length →
        ((∃ i t, i < ([3, 7] : List ℚ).length ∧ 0 ≤ t ∧ t < 1 ∧
            out.getD k 0 = (1 - t) * ([3, 7] : List ℚ).getD i 0 +
              t * ([3, 7] : List ℚ).getD (min (i + 1) (([3, 7] : List ℚ).length - 1)) 0) ∧
          (([5, -2] : List ℚ).getD k 0 ≤ 0 → out.getD k 0 = ([3, 7] : List ℚ).getD 0 0) ∧
          ((([3, 7] : List ℚ).length : ℚ) - 1 ≤ ([5, -2] : List ℚ).getD k 0 →
            out.getD k 0 = ([3, 7] : List ℚ).getD (([3, 7] : List ℚ).length - 1) 0)) :=
  linear_interp_total_clamped [3, 7] [5, -2] (by decide)

/- ------------------------------------------------------------------ -/
/- Claim C9: MCRA noise estimate never falls below eps_floor.          -/
/- ------------------------------------------------------------------ -/

theorem mem_zipWith_cases {f : ℚ → ℚ → ℚ} :
    ∀ {l₁ l₂ : List ℚ} {x : ℚ}, x ∈ List.zipWith f l₁ l₂ →
      ∃ a ∈ l₁, ∃ b ∈ l₂, x = f a b := by
  intro l₁
  induction l₁ with
  | nil => intro l₂ x hx; simp at hx
  | cons a t ih =>
      intro l₂ x hx
      cases l₂ with
      | nil => simp at hx
      | cons b t₂ =>
          simp only [List.zipWith_cons_cons, List.mem_cons] at hx
          rcases hx with h | h
          · exact ⟨a, List.mem_cons_self a t, b, List.mem_cons_self b t₂, h⟩
          · obtain ⟨a', ha', b', hb', hx⟩ := ih h
            exact ⟨a', List.mem_cons_of_mem a ha', b', List.mem_cons_of_mem b hb', hx⟩

theorem mcraUpdate_returns_Nhat (cfg : MCRACfg) (st : Option MCRAState) (P0 : List ℚ)
    (st' : MCRAState) (out : List ℚ) (h : mcraUpdate cfg st P0 = some (st', out)) :
    out = st'.Nhat := by
  unfold mcraUpdate at h
  split at h
  · exact absurd h (by simp)
  · cases st with
    | none =>
        simp only [Option.some_inj, Prod.mk.injEq] at h
        rw [← h.1]
        exact h.2.symm
    | some s =>
        simp only [Option.some_inj, Prod.mk.injEq] at h
        rw [← h.1]
        exact h.2.symm

theorem mcraUpdate_floor (cfg : MCRACfg) (st : Option MCRAState) (P0 : List ℚ)
    (st' : MCRAState) (out : List ℚ)
    (hgood : ∀ s, st = some s → ∀ v ∈ s.Nhat, cfg.epsFloor ≤ v)
    (h : mcraUpdate cfg st P0 = some (st', out)) :
    ∀ v ∈ st'.Nhat, cfg.epsFloor ≤ v := by
  unfold mcraUpdate at h
  split at h
  · exact absurd h (by simp)
  · cases st with
    | none =>
        simp only [Option.some_inj, Prod.mk.injEq] at h
        intro v hv
        rw [← h.1] at hv
        simp only [List.mem_map] at hv
        obtain ⟨s, _, hs⟩ := hv
        rw [← hs]
        exact le_max_right _ _
    | some s =>
        simp only [Option.some_inj, Prod.mk.injEq] at h
        intro v hv
        rw [← h.1] at hv
        obtain ⟨old, hold, nn, hnn, hv⟩ := mem_zipWith_cases hv
        have h1 : cfg.epsFloor ≤ old := hgood s rfl old hold
        have h2 : cfg.epsFloor ≤ nn := by
          simp only [List.mem_map] at hnn
          obtain ⟨m, _, hm⟩ := hnn
          rw [← hm]
          exact le_max_right _ _
        rw [hv]
        linarith

theorem mcraFoldFrom_floor (cfg : MCRACfg) (inputs : List (List ℚ)) :
    ∀ acc st, (∀ s, acc = some (some s) → ∀ v ∈ s.Nhat, cfg.epsFloor ≤ v) →
      mcraFoldFrom cfg acc inputs = some (some st) →
      ∀ v ∈ st.Nhat, cfg.epsFloor ≤ v := by
  induction inputs with
  | nil =>
      intro acc st hacc h
      exact hacc st (by simpa [mcraFoldFrom] using h)
  | cons P rest ih =>
      intro acc st hacc h
      have hfold : mcraFoldFrom cfg
          (acc.bind (fun s0 => (mcraUpdate cfg s0 P).map (fun r => some r.1))) rest =
          some (some st) := by
        simpa [mcraFoldFrom] using h
      refine ih _ st ?_ hfold
      intro s hs
      rcases hbind : acc with _ | s0
      · rw [hbind] at hs; simp at hs
      · rw [hbind] at hs
        simp only [Option.some_bind] at hs
        rcases hupd : mcraUpdate cfg s0 P with _ | r
        · rw [hupd] at hs; simp at hs
        · rw [hupd] at hs
          simp only [Option.map_some', Option.some.injEq] at hs
          rw [← hs]
          refine mcraUpdate_floor cfg s0 P r.1 r.2 ?_ ?_
          · intro s1 hs1 v hv
            exact hacc s1 (by rw [hbind, hs1]) v hv
          · rw [hupd]

/-- Claim C9 (confirmed): after every successful run of MCRA.update calls
from the uninitialized state, every bin of the state's noise estimate is at
least eps_floor, hence strictly positive whenever eps_floor is; moreover
each call returns exactly the new state's noise estimate, so the same bound
holds for every returned estimate.  Established by the first-call
initialization max(delta * S, eps) and preserved by the 0.8/0.2 EMA of a
value clamped to eps. -/
theorem mcra_noise_floor (cfg : MCRACfg) (inputs : List (List ℚ)) (st : MCRAState)
    (h : mcraFold cfg inputs = some (some st)) :
    (∀ v ∈ st.Nhat, cfg.epsFloor ≤ v) ∧
      (0 < cfg.epsFloor → ∀ v ∈ st.Nhat, 0 < v) ∧
      (∀ stIn P stOut out, mcraUpdate cfg stIn P = some (stOut, out) → out = stOut.Nhat) := by
  have hmain : ∀ v ∈ st.Nhat, cfg.epsFloor ≤ v := by
    refine mcraFoldFrom_floor cfg inputs (some none) st ?_ h
    intro s hs
    simp at hs
  exact ⟨hmain, fun heps v hv => lt_of_lt_of_le heps (hmain v hv),
    fun stIn P stOut out hupd => mcraUpdate_returns_Nhat cfg stIn P stOut out hupd⟩

/-- Witness for C9: a concrete two-frame run with eps_floor = 1/100. -/
theorem mcra_noise_floor_witness :
    (∀ v ∈ (MCRAState.mk [(0:ℚ)] [1/100] [[0]] 0 [0]).Nhat,
        (MCRACfg.mk 1 (1/2) 1 (3/2) (1/10) (1/100) (by norm_num) (by norm_num)
          (by norm_num)).epsFloor ≤ v) ∧
      (0 < (MCRACfg.mk 1 (1/2) 1 (3/2) (1/10) (1/100) (by norm_num) (by norm_num)
          (by norm_num)).epsFloor →
        ∀ v ∈ (MCRAState.mk [(0:ℚ)] [1/100] [[0]] 0 [0]).Nhat, 0 < v) ∧
      (∀ stIn P stOut out,
        mcraUpdate (MCRACfg.mk 1 (1/2) 1 (3/2) (1/10) (1/100) (by norm_num) (by norm_num)
          (by norm_num)) stIn P = some (stOut, out) → out = stOut.Nhat) :=
  mcra_noise_floor _ [[0]] (MCRAState.mk [(0:ℚ)] [1/100] [[0]] 0 [0])
    (by norm_num [mcraFold, mcraFoldFrom, mcraUpdate])

/- ------------------------------------------------------------------ -/
/- Claim C1: circular non-maximum suppression in the peak extractor.   -/
/- ------------------------------------------------------------------ -/

theorem suppress_length (cfg : PECfg) (grid P : List ℚ) (idxC : Nat)
    (hlen : P.length = grid.length) :
    (suppress cfg grid P idxC).length = grid.length := by
  simp [suppress, List.length_zipWith, hlen]

theorem suppress_getD (cfg : PECfg) (grid P : List ℚ) (idxC : Nat)
    (hlen : P.length = grid.length) (a : Nat) :
    (suppress cfg grid P idxC).getD a 0 =
      if a < grid.length then
        (if |circDist (grid.getD idxC 0) (grid.getD a 0)| ≤ cfg.suppressionDeg then 0
          else P.getD a 0)
      else 0 := by
  have hzl : (suppress cfg grid P idxC).length = grid.length :=
    suppress_length cfg grid P idxC hlen
  rcases lt_or_ge a grid.length with h | h
  · rw [if_pos h]
    have ha : a < (suppress cfg grid P idxC).length := by omega
    rw [List.getD_eq_getElem _ _ ha]
    simp only [suppress, List.getElem_zipWith]
    rw [List.getD_eq_getElem grid 0 h, List.getD_eq_getElem P 0 (by omega)]
  · rw [if_neg (not_lt.mpr h)]
    rw [List.getD_eq_getElem?_getD, List.getElem?_eq_none (by omega), Option.getD_none]

theorem extractLoop_succ (cfg : PECfg) (grid : List ℚ) (n : Nat) (work : List ℚ) :
    extractLoop cfg grid (n + 1) work =
      if work.isEmpty then []
      else if work.getD (argmax work) 0 < cfg.minPower then []
      else
        { azimuthDeg := wrap360 (grid.getD (argmax work) 0),
          power := work.getD (argmax work) 0, index := argmax work } ::
          extractLoop cfg grid n (suppress cfg grid work (argmax work)) := rfl

theorem extractLoop_far (cfg : PECfg) (grid : List ℚ) (hmp : 0 < cfg.minPower) :
    ∀ (fuel : Nat) (work : List ℚ) (tc : ℚ), work.length = grid.length →
      (∀ a, |circDist tc (grid.getD a 0)| ≤ cfg.suppressionDeg → work.getD a 0 = 0) →
      ∀ c ∈ extractLoop cfg grid fuel work,
        cfg.suppressionDeg < |circDist tc c.azimuthDeg| := by
  intro fuel
  induction fuel with
  | zero =>
      intro work tc _ _ c hc
      simp [extractLoop] at hc
  | succ n ih =>
      intro work tc hlen hzero c hc
      rw [extractLoop_succ] at hc
      by_cases hemp : work.isEmpty = true
      · rw [if_pos hemp] at hc
        simp at hc
      · rw [if_neg hemp] at hc
        by_cases hlt : work.getD (argmax work) 0 < cfg.minPower
        · rw [if_pos hlt] at hc
          simp at hc
        · rw [if_neg hlt] at hc
          rcases List.mem_cons.mp hc with hceq | hctail
          · rw [hceq]
            simp only
            by_contra hle
            push_neg at hle
            have hdist : |circDist tc (grid.getD (argmax work) 0)| ≤ cfg.suppressionDeg := by
              have := circDist_wrap360_right tc (grid.getD (argmax work) 0)
              rw [← this]
              exact hle
            have h0 := hzero (argmax work) hdist
            rw [h0] at hlt
            exact hlt hmp
          · refine ih (suppress cfg grid work (argmax work)) tc
              (suppress_length cfg grid work (argmax work) hlen) ?_ c hctail
            intro a ha
            rw [suppress_getD cfg grid work (argmax work) hlen a]
            rcases lt_or_ge a grid.length with h | h
            · rw [if_pos h]
              by_cases hm : |circDist (grid.getD (argmax work) 0) (grid.getD a 0)| ≤
                  cfg.suppressionDeg
              · rw [if_pos hm]
              · rw [if_neg hm]
                exact hzero a ha
            · rw [if_neg (not_lt.mpr h)]

theorem extractLoop_pairwise (cfg : PECfg) (grid : List ℚ) (hmp : 0 < cfg.minPower) :
    ∀ (fuel : Nat) (work : List ℚ), work.length = grid.length →
      List.Pairwise
        (fun u v => cfg.suppressionDeg < |circDist u.azimuthDeg v.azimuthDeg|)
        (extractLoop cfg grid fuel work) := by
  intro fuel
  induction fuel with
  | zero =>
      intro work _
      simp [extractLoop]
  | succ n ih =>
      intro work hlen
      rw [extractLoop_succ]
      by_cases hemp : work.isEmpty = true
      · rw [if_pos hemp]
        exact List.Pairwise.nil
      · rw [if_neg hemp]
        by_cases hlt : work.getD (argmax work) 0 < cfg.minPower
        · rw [if_pos hlt]
          exact List.Pairwise.nil
        · rw [if_neg hlt]
          refine List.pairwise_cons.mpr ⟨?_, ih _ (suppress_length cfg grid work _ hlen)⟩
          intro c hc
          simp only
          have hfar := extractLoop_far cfg grid hmp n
            (suppress cfg grid work (argmax work)) (grid.getD (argmax work) 0)
            (suppress_length cfg grid work (argmax work) hlen) ?_ c hc
          · have := circDist_wrap360_left (grid.getD (argmax work) 0) c.azimuthDeg
            rw [← this] at hfar
            exact hfar
          · intro a ha
            rw [suppress_getD cfg grid work (argmax work) hlen a]
            rcases lt_or_ge a grid.length with h | h
            · rw [if_pos h, if_pos ha]
            · rw [if_neg (not_lt.mpr h)]

/-- Claim C1 (amended): with a strictly positive min_power (the claim as
stated fails for min_power at most 0), no two candidates returned by
PeakExtractor.extract lie within suppression_deg of each other: every later
candidate is picked at a bin whose working value is at least min_power,
hence nonzero, hence outside every earlier suppression neighborhood. -/
theorem peak_nms_amended (cfg : PECfg) (grid P : List ℚ) (hmp : 0 < cfg.minPower)
    (hlen : P.length = grid.length) :
    List.Pairwise
      (fun u v => cfg.suppressionDeg < |circDist u.azimuthDeg v.azimuthDeg|)
      (extract cfg grid P) := by
  unfold extract
  have hperm := List.perm_insertionSort (fun a b => b.power ≤ a.power)
    (extractLoop cfg grid cfg.maxSources P)
  have hsym : Symmetric
      (fun (u v : DOACandidate) =>
        cfg.suppressionDeg < |circDist u.azimuthDeg v.azimuthDeg|) := by
    intro u v h
    rwa [abs_circDist_comm] at h
  exact (hperm.pairwise_iff fun hab => hsym hab).mpr
    (extractLoop_pairwise cfg grid hmp cfg.maxSources P hlen)

/-- Claim C1 counterexample: with the configuration max_sources = 2,
min_power = 0, suppression_deg = 15 and the power map [0] on the grid [0],
extract returns the same zero-power candidate twice, so two returned
candidates have circular distance 0, which is at most suppression_deg. -/
theorem peak_nms_counterexample :
    ¬ List.Pairwise
        (fun u v =>
          (PECfg.mk 2 0 15).suppressionDeg < |circDist u.azimuthDeg v.azimuthDeg|)
        (extract (PECfg.mk 2 0 15) [0] [0]) := by
  have hev : extract (PECfg.mk 2 0 15) [0] [0] =
      [DOACandidate.mk 0 0 0, DOACandidate.mk 0 0 0] := by
    norm_num [extract, extractLoop, argmax, argmaxGo, suppress, wrap360, fmod, circDist,
      wrapDeg, List.insertionSort, List.orderedInsert]
  rw [hev]
  intro hp
  have hhead := (List.pairwise_cons.mp hp).1 (DOACandidate.mk 0 0 0)
    (List.mem_cons_self _ _)
  norm_num [circDist, wrapDeg, fmod] at hhead

/-- Witness for the amended C1 at a concrete two-bin map. -/
theorem peak_nms_amended_witness :
    List.Pairwise
      (fun u v =>
        (PECfg.mk 2 1 15).suppressionDeg < |circDist u.azimuthDeg v.azimuthDeg|)
      (extract (PECfg.mk 2 1 15) [0, 180] [5, 3]) :=
  peak_nms_amended (PECfg.mk 2 1 15) [0, 180] [5, 3] (by norm_num) (by simp)

/- ------------------------------------------------------------------ -/
/- Claim C3: STFT frame conservation under arbitrary chunking.         -/
/- ------------------------------------------------------------------ -/

theorem nFrames_mul_hop_le (cfg : STFTCfg) (L : Nat) : nFrames cfg L * cfg.hopSize ≤ L := by
  unfold nFrames
  by_cases h : cfg.frameSize ≤ L
  · rw [if_pos h]
    have h1 : (L - cfg.frameSize) / cfg.hopSize * cfg.hopSize ≤ L - cfg.frameSize :=
      Nat.div_mul_le_self _ _
    have h2 := cfg.hop_le
    have h3 := cfg.hop_pos
    calc ((L - cfg.frameSize) / cfg.hopSize + 1) * cfg.hopSize
        = (L - cfg.frameSize) / cfg.hopSize * cfg.hopSize + cfg.hopSize := by ring
      _ ≤ (L - cfg.frameSize) + cfg.hopSize := by omega
      _ ≤ L := by omega
  · rw [if_neg h]
    omega

theorem nFrames_frame_le (cfg : STFTCfg) (L i : Nat) (hi : i < nFrames cfg L) :
    i * cfg.hopSize + cfg.frameSize ≤ L := by
  unfold nFrames at hi
  by_cases h : cfg.frameSize ≤ L
  · rw [if_pos h] at hi
    have h1 : i ≤ (L - cfg.frameSize) / cfg.hopSize := by omega
    have h2 : i * cfg.hopSize ≤ (L - cfg.frameSize) / cfg.hopSize * cfg.hopSize :=
      Nat.mul_le_mul_right _ h1
    have h3 : (L - cfg.frameSize) / cfg.hopSize * cfg.hopSize ≤ L - cfg.frameSize :=
      Nat.div_mul_le_self _ _
    omega
  · rw [if_neg h] at hi
    omega

theorem nFrames_succ_drop (cfg : STFTCfg) (L : Nat) (h : cfg.frameSize ≤ L) :
    nFrames cfg L = nFrames cfg (L - cfg.hopSize) + 1 := by
  have hp := cfg.hop_pos
  have hle := cfg.hop_le
  unfold nFrames
  rw [if_pos h]
  by_cases h2 : cfg.frameSize ≤ L - cfg.hopSize
  · rw [if_pos h2]
    have he : L - cfg.frameSize = (L - cfg.hopSize - cfg.frameSize) + cfg.hopSize := by omega
    rw [he, Nat.add_div_right _ hp]
  · rw [if_neg h2]
    have hlt : L - cfg.frameSize < cfg.hopSize := by omega
    rw [Nat.div_eq_of_lt hlt]

theorem nFrames_of_le (cfg : STFTCfg) (X : Nat) (h : cfg.frameSize ≤ X) :
    nFrames cfg X = (X - cfg.frameSize) / cfg.hopSize + 1 := by
  unfold nFrames
  rw [if_pos h]

theorem nFrames_of_gt (cfg : STFTCfg) (X : Nat) (h : ¬ cfg.frameSize ≤ X) :
    nFrames cfg X = 0 := by
  unfold nFrames
  rw [if_neg h]

theorem nFrames_split (cfg : STFTCfg) (L T : Nat) (hLT : L ≤ T) :
    nFrames cfg (T - nFrames cfg L * cfg.hopSize) + nFrames cfg L = nFrames cfg T := by
  have hp := cfg.hop_pos
  have hle := cfg.hop_le
  have hmul := nFrames_mul_hop_le cfg L
  by_cases h : cfg.frameSize ≤ L
  · have hT : cfg.frameSize ≤ T := le_trans h hLT
    have hn0 := nFrames_of_le cfg L h
    by_cases h2 : cfg.frameSize ≤ T - nFrames cfg L * cfg.hopSize
    · have hk := nFrames_of_le cfg (T - nFrames cfg L * cfg.hopSize) h2
      have hTn := nFrames_of_le cfg T hT
      rw [hk, hTn]
      have he : T - cfg.frameSize =
          (T - nFrames cfg L * cfg.hopSize - cfg.frameSize) +
            nFrames cfg L * cfg.hopSize := by omega
      rw [he, Nat.add_mul_div_right _ _ hp]
      omega
    · have hk := nFrames_of_gt cfg (T - nFrames cfg L * cfg.hopSize) h2
      have hTn := nFrames_of_le cfg T hT
      rw [hk, hTn, hn0]
      have hub : T - cfg.frameSize < ((L - cfg.frameSize) / cfg.hopSize + 1) * cfg.hopSize := by
        rw [hn0] at h2 hmul
        omega
      have hlb : (L - cfg.frameSize) / cfg.hopSize ≤ (T - cfg.frameSize) / cfg.hopSize :=
        Nat.div_le_div_right (by omega)
      have hub2 : (T - cfg.frameSize) / cfg.hopSize < (L - cfg.frameSize) / cfg.hopSize + 1 :=
        (Nat.div_lt_iff_lt_mul hp).mpr hub
      omega
  · have hn0 := nFrames_of_gt cfg L h
    rw [hn0]
    simp

theorem emitFrames_eq (cfg : STFTCfg) (buf : List α) :
    emitFrames cfg buf =
      ((List.range (nFrames cfg buf.length)).map
          (fun i => (buf.drop (i * cfg.hopSize)).take cfg.frameSize),
        buf.drop (nFrames cfg buf.length * cfg.hopSize)) := by
  have H : ∀ (L : Nat) (buf : List α), buf.length = L →
      emitFrames cfg buf =
        ((List.range (nFrames cfg buf.length)).map
            (fun i => (buf.drop (i * cfg.hopSize)).take cfg.frameSize),
          buf.drop (nFrames cfg buf.length * cfg.hopSize)) := by
    intro L
    induction L using Nat.strong_induction_on with
    | _ L ih =>
        intro buf hL
        by_cases h : cfg.frameSize ≤ buf.length
        · rw [emitFrames, dif_pos h]
          have hlen : (buf.drop cfg.hopSize).length = buf.length - cfg.hopSize := by simp
          have hdec : buf.length - cfg.hopSize < L := by
            have := cfg.hop_pos
            have := cfg.hop_le
            omega
          rw [ih (buf.length - cfg.hopSize) (by omega) (buf.drop cfg.hopSize) (by simp)]
          have hsucc : nFrames cfg buf.length =
              nFrames cfg ((buf.drop cfg.hopSize).length) + 1 := by
            rw [hlen]
            exact nFrames_succ_drop cfg buf.length h
          rw [hsucc]
          simp only [Prod.mk.injEq]
          constructor
          · rw [List.range_succ_eq_map, List.map_cons, List.map_map]
            congr 1
            · norm_num
            · apply List.map_congr_left
              intro i _
              simp only [Function.comp]
              rw [List.drop_drop]
              congr 2
              rw [Nat.succ_mul]
              exact Nat.add_comm _ _
          · rw [List.drop_drop]
            congr 1
            rw [Nat.succ_mul]
            exact Nat.add_comm _ _
        · rw [emitFrames, dif_neg h]
          have h0 : nFrames cfg buf.length = 0 := by
            unfold nFrames
            rw [if_neg h]
          rw [h0]
          simp
  exact H buf.length buf rfl

theorem framesOf_nil (cfg : STFTCfg) : framesOf cfg ([] : List α) = [] := by
  have h : ¬ cfg.frameSize ≤ 0 := by
    have h1 := cfg.hop_pos
    have h2 := cfg.hop_le
    omega
  simp [framesOf, nFrames_of_gt cfg 0 h]

theorem leftover_nil (cfg : STFTCfg) : leftover cfg ([] : List α) = [] := by
  simp [leftover]

theorem processBlock_comp (cfg : STFTCfg) (S b : List α) :
    framesOf cfg S ++ (processBlock cfg (leftover cfg S) b).1 = framesOf cfg (S ++ b) ∧
      (processBlock cfg (leftover cfg S) b).2 = leftover cfg (S ++ b) := by
  by_cases hb : b.isEmpty
  · have hbe : b = [] := List.isEmpty_iff.mp hb
    subst hbe
    simp [processBlock]
  · have hF1 : nFrames cfg S.length * cfg.hopSize ≤ S.length := nFrames_mul_hop_le cfg _
    have hF2 : leftover cfg S ++ b = (S ++ b).drop (nFrames cfg S.length * cfg.hopSize) := by
      rw [List.drop_append_of_le_length hF1]
      rfl
    have hT : S.length ≤ (S ++ b).length := by simp
    have hF3 : (leftover cfg S ++ b).length =
        (S ++ b).length - nFrames cfg S.length * cfg.hopSize := by
      rw [hF2, List.length_drop]
    have hsplit := nFrames_split cfg S.length (S ++ b).length hT
    have hpb : processBlock cfg (leftover cfg S) b = emitFrames cfg (leftover cfg S ++ b) := by
      unfold processBlock
      rw [if_neg (by simp [hb])]
    rw [hpb, emitFrames_eq]
    dsimp only
    rw [hF3]
    constructor
    · -- frames component
      have hrhs : framesOf cfg (S ++ b) =
          (List.range (nFrames cfg S.length +
              nFrames cfg ((S ++ b).length - nFrames cfg S.length * cfg.hopSize))).map
            (fun i => ((S ++ b).drop (i * cfg.hopSize)).take cfg.frameSize) := by
        unfold framesOf
        congr 2
        omega
      rw [hrhs, List.range_add, List.map_append, List.map_map]
      congr 1
      · -- prefix equals framesOf S
        unfold framesOf
        apply List.map_congr_left
        intro i hi
        have hilt : i < nFrames cfg S.length := List.mem_range.mp hi
        have hfit := nFrames_frame_le cfg S.length i hilt
        rw [List.drop_append_of_le_length (by omega : i * cfg.hopSize ≤ S.length)]
        rw [List.take_append_of_le_length (by simp; omega)]
      · -- emitted part
        apply List.map_congr_left
        intro i _
        simp only [Function.comp]
        rw [hF2, List.drop_drop, Nat.add_mul]
    · -- leftover component
      rw [hF2, List.drop_drop]
      unfold leftover
      congr 1
      rw [← hsplit, Nat.add_mul]
      exact Nat.add_comm _ _

theorem stftRun_closed (cfg : STFTCfg) (blocks : List (List α)) :
    stftRun cfg blocks = (framesOf cfg blocks.join, leftover cfg blocks.join) := by
  suffices H : ∀ (bs : List (List α)) (S : List α),
      bs.foldl (fun acc b => let r := processBlock cfg acc.2 b; (acc.1 ++ r.1, r.2))
        (framesOf cfg S, leftover cfg S) =
        (framesOf cfg (S ++ bs.join), leftover cfg (S ++ bs.join)) by
    have h0 := H blocks []
    simp only [List.nil_append] at h0
    rw [framesOf_nil cfg, leftover_nil cfg] at h0
    unfold stftRun
    exact h0
  intro bs
  induction bs with
  | nil =>
      intro S
      simp
  | cons b rest ih =>
      intro S
      rw [List.foldl_cons]
      have hcomp := processBlock_comp cfg S b
      have hstep :
          (framesOf cfg S ++ (processBlock cfg (leftover cfg S) b).1,
            (processBlock cfg (leftover cfg S) b).2) =
          (framesOf cfg (S ++ b), leftover cfg (S ++ b)) := by
        rw [hcomp.1, hcomp.2]
      simp only at hstep ⊢
      rw [hstep, ih (S ++ b)]
      simp [List.append_assoc]

/-- Claim C3 (confirmed): feeding T total sample columns to
STFTProcessor.process_block in any chunking yields
floor((T - frame_size) / hop_size) + 1 frames once T reaches frame_size and
none before, and the emitted frames themselves are exactly the frames of the
concatenated stream, hence identical across chunkings (the per-frame window
and FFT map preserves this equality). -/
theorem stft_frame_conservation (cfg : STFTCfg) (blocks : List (List α)) :
    (stftRun cfg blocks).1.length =
      (if cfg.frameSize ≤ blocks.join.length then
        (blocks.join.length - cfg.frameSize) / cfg.hopSize + 1
      else 0) ∧
      (stftRun cfg blocks).1 = (stftRun cfg [blocks.join]).1 := by
  rw [stftRun_closed, stftRun_closed]
  constructor
  · simp [framesOf, nFrames]
  · simp [framesOf]

/- ------------------------------------------------------------------ -/
/- Tracker helper lemmas.                                              -/
/- ------------------------------------------------------------------ -/

theorem updateAssigned_ids (cfg : TrackerCfg) (tracks : List Track)
    (assigns : List (Nat × Nat)) (dets : List (ℚ × ℚ)) (frame : Nat) :
    (updateAssigned cfg tracks assigns dets frame).map Track.id = tracks.map Track.id := by
  unfold updateAssigned
  rw [List.map_map]
  apply List.map_congr_left
  intro t _
  simp only [Function.comp]
  cases h : assigns.lookup t.id <;> simp [h, kalmanUpdate]

theorem predictAll_ids (cfg : TrackerCfg) (tracks : List Track) :
    (tracks.map (predictTrack cfg)).map Track.id = tracks.map Track.id := by
  rw [List.map_map]
  apply List.map_congr_left
  intro t _
  rfl

theorem bestDet_nil (theta : ℚ) (used : List Bool) : bestDet theta [] used = none := rfl

theorem associate_nil (cfg : TrackerCfg) (tracks : List Track) :
    associate cfg tracks [] = ([], []) := by
  unfold associate
  have h : ∀ (ts : List Track) (acc : List (Nat × Nat) × List Bool),
      ts.foldl
        (fun acc tr =>
          match bestDet tr.theta [] acc.2 with
          | none => acc
          | some best =>
              if best.2 ≤ cfg.gateDeg then (acc.1 ++ [(tr.id, best.1)], acc.2.set best.1 true)
              else acc)
        acc = acc := by
    intro ts
    induction ts with
    | nil => intro acc; rfl
    | cons t ts ih => intro acc; rw [List.foldl_cons]; exact ih _
  simp only [List.length_nil, List.replicate_zero]
  exact h tracks ([], [])

theorem unusedIndices_nil : unusedIndices [] = [] := rfl

theorem updateAssigned_empty (cfg : TrackerCfg) (tracks : List Track)
    (dets : List (ℚ × ℚ)) (frame : Nat) :
    updateAssigned cfg tracks [] dets frame =
      tracks.map (fun t => { t with misses := t.misses + 1, age := t.age + 1 }) := by
  unfold updateAssigned
  apply List.map_congr_left
  intro t _
  rfl

theorem pruneTrack_some (cfg : TrackerCfg) (t t' : Track)
    (h : pruneTrack cfg t = some t') :
    t'.id = t.id ∧ t'.misses = t.misses ∧ t.misses ≤ cfg.deathFrames := by
  simp only [pruneTrack] at h
  split_ifs at h with h1 h2 h3 h4 h5 h6 h7
  all_goals
    try (injection h with heq
         rw [← heq]
         exact ⟨rfl, rfl, by omega⟩)
  all_goals injection h

theorem filterMap_map_sublist {f : Track → Option Track}
    (hf : ∀ a b, f a = some b → b.id = a.id) :
    ∀ (l : List Track), ((l.filterMap f).map Track.id).Sublist (l.map Track.id) := by
  intro l
  induction l with
  | nil => simp
  | cons a t ih =>
      rw [List.filterMap_cons]
      cases h : f a with
      | none =>
          rw [List.map_cons]
          exact ih.cons _
      | some b =>
          rw [List.map_cons, List.map_cons, hf a b h]
          exact ih.cons₂ _

theorem agePrune_ids_sublist (cfg : TrackerCfg) (l : List Track) :
    ((agePrune cfg l).map Track.id).Sublist (l.map Track.id) :=
  filterMap_map_sublist (fun a b h => (pruneTrack_some cfg a b h).1) l

theorem promoteLoop_nextId_mono (cfg : TrackerCfg) :
    ∀ (ps : List Pending) (tracks : List Track) (nid : Nat),
      nid ≤ (promoteLoop cfg ps tracks nid).2.2 := by
  intro ps
  induction ps with
  | nil => intro tracks nid; exact le_refl _
  | cons p rest ih =>
      intro tracks nid
      simp only [promoteLoop]
      repeat' split
      all_goals
        first
          | exact le_trans (Nat.le_succ nid) (ih _ _)
          | exact ih _ _

theorem promoteLoop_tracks_mem (cfg : TrackerCfg) :
    ∀ (ps : List Pending) (tracks : List Track) (nid : Nat) (t : Track),
      t ∈ (promoteLoop cfg ps tracks nid).2.1 →
        t ∈ tracks ∨ (nid ≤ t.id ∧ t.misses = 0) := by
  intro ps
  induction ps with
  | nil => intro tracks nid t ht; exact Or.inl ht
  | cons p rest ih =>
      intro tracks nid t ht
      simp only [promoteLoop] at ht
      repeat' split at ht
      all_goals
        first
          | (rcases ih _ _ t ht with hmem | ⟨hge, hm⟩
             · rcases List.mem_append.mp hmem with hmem1 | hmem2
               · exact Or.inl hmem1
               · right
                 have he : t = mkTrack cfg nid p.theta := by simpa using hmem2
                 rw [he]
                 exact ⟨le_refl _, rfl⟩
             · exact Or.inr ⟨le_trans (Nat.le_succ nid) hge, hm⟩)
          | exact ih _ _ t ht

theorem promoteLoop_inv (cfg : TrackerCfg) :
    ∀ (ps : List Pending) (tracks : List Track) (nid : Nat),
      List.Pairwise (· < ·) (tracks.map Track.id) →
      (∀ i ∈ tracks.map Track.id, i < nid) →
      List.Pairwise (· < ·) ((promoteLoop cfg ps tracks nid).2.1.map Track.id) ∧
        ∀ i ∈ (promoteLoop cfg ps tracks nid).2.1.map Track.id,
          i < (promoteLoop cfg ps tracks nid).2.2 := by
  intro ps
  induction ps with
  | nil =>
      intro tracks nid h1 h2
      exact ⟨h1, h2⟩
  | cons p rest ih =>
      intro tracks nid h1 h2
      simp only [promoteLoop]
      repeat' split
      all_goals
        first
          | exact ih _ _ h1 h2
          | (refine ih _ _ ?_ ?_
             · rw [List.map_append, List.pairwise_append]
               refine ⟨h1, by simp, ?_⟩
               intro a ha b hb
               simp only [List.map_cons, List.map_nil, List.mem_singleton] at hb
               rw [hb]
               show a < (mkTrack cfg nid p.theta).id
               exact h2 a ha
             · intro i hi
               rw [List.map_append] at hi
               rcases List.mem_append.mp hi with hl | hr
               · exact lt_trans (h2 i hl) (Nat.lt_succ_self nid)
               · simp only [List.map_cons, List.map_nil, List.mem_singleton] at hr
                 rw [hr]
                 show (mkTrack cfg nid p.theta).id < nid + 1
                 exact Nat.lt_succ_self nid)

theorem pendingMatchPhase_nil (cfg : TrackerCfg) (tracks : List Track)
    (pending : List Pending) (dets : List (ℚ × ℚ)) :
    pendingMatchPhase cfg tracks pending [] dets = (pending, []) := rfl

theorem step_core_inv (cfg : TrackerCfg) (tracks2 : List Track) (pend : List Pending)
    (nid : Nat) (h1 : List.Pairwise (· < ·) (tracks2.map Track.id))
    (h2 : ∀ i ∈ tracks2.map Track.id, i < nid) :
    List.Pairwise (· < ·)
        ((agePrune cfg (promoteLoop cfg pend tracks2 nid).2.1).map Track.id) ∧
      ∀ i ∈ (agePrune cfg (promoteLoop cfg pend tracks2 nid).2.1).map Track.id,
        i < (promoteLoop cfg pend tracks2 nid).2.2 := by
  have hPL := promoteLoop_inv cfg pend tracks2 nid h1 h2
  constructor
  · exact hPL.1.sublist (agePrune_ids_sublist cfg _)
  · intro i hi
    exact hPL.2 i ((agePrune_ids_sublist cfg _).subset hi)

theorem trackerStep_nextId_mono (cfg : TrackerCfg) (st : TrackerState)
    (dets : List (ℚ × ℚ)) (frame : Nat) :
    st.nextId ≤ (trackerStep cfg st dets frame).nextId := by
  simp only [trackerStep]
  exact promoteLoop_nextId_mono cfg _ _ _

theorem trackerStep_inv (cfg : TrackerCfg) (st : TrackerState) (dets : List (ℚ × ℚ))
    (frame : Nat) (h : TrackerInv st) : TrackerInv (trackerStep cfg st dets frame) := by
  obtain ⟨h1, h2⟩ := h
  simp only [TrackerInv, idsOf, trackerStep]
  refine step_core_inv cfg _ _ _ ?_ ?_
  · rw [updateAssigned_ids, predictAll_ids]
    exact h1
  · rw [updateAssigned_ids, predictAll_ids]
    exact h2

theorem trackerStep_mem (cfg : TrackerCfg) (st : TrackerState) (dets : List (ℚ × ℚ))
    (frame : Nat) :
    ∀ t' ∈ (trackerStep cfg st dets frame).tracks,
      t'.id ∈ idsOf st ∨ st.nextId ≤ t'.id := by
  intro t' ht'
  simp only [trackerStep, agePrune] at ht'
  obtain ⟨s, hs, hps⟩ := List.mem_filterMap.mp ht'
  rcases promoteLoop_tracks_mem cfg _ _ _ s hs with hmem | ⟨hge, _⟩
  · left
    rw [(pruneTrack_some cfg s t' hps).1]
    have hid := List.mem_map_of_mem Track.id hmem
    rw [updateAssigned_ids, predictAll_ids] at hid
    exact hid
  · right
    rw [(pruneTrack_some cfg s t' hps).1]
    exact hge

theorem trackerStep_misses_le (cfg : TrackerCfg) (st : TrackerState)
    (dets : List (ℚ × ℚ)) (frame : Nat) :
    ∀ t' ∈ (trackerStep cfg st dets frame).tracks, t'.misses ≤ cfg.deathFrames := by
  intro t' ht'
  simp only [trackerStep, agePrune] at ht'
  obtain ⟨s, _, hps⟩ := List.mem_filterMap.mp ht'
  have h := pruneTrack_some cfg s t' hps
  omega

theorem trackerStep_empty (cfg : TrackerCfg) (st : TrackerState) (frame : Nat) :
    ∀ t' ∈ (trackerStep cfg st [] frame).tracks, t'.id < st.nextId →
      ∃ t ∈ st.tracks, t.id = t'.id ∧ t'.misses = t.misses + 1 := by
  intro t' ht' hlt
  simp only [trackerStep, agePrune, associate_nil, unusedIndices_nil,
    pendingMatchPhase_nil, List.append_nil, updateAssigned_empty] at ht'
  obtain ⟨s, hs, hps⟩ := List.mem_filterMap.mp ht'
  rcases promoteLoop_tracks_mem cfg _ _ _ s hs with hmem | ⟨hge, _⟩
  · rw [List.map_map] at hmem
    obtain ⟨t, ht, hseq⟩ := List.mem_map.mp hmem
    refine ⟨t, ht, ?_, ?_⟩
    · rw [(pruneTrack_some cfg s t' hps).1, ← hseq]
      rfl
    · rw [(pruneTrack_some cfg s t' hps).2.1, ← hseq]
      rfl
  · exfalso
    have hid := (pruneTrack_some cfg s t' hps).1
    omega

theorem runSteps_cons (cfg : TrackerCfg) (st : TrackerState)
    (i : List (ℚ × ℚ) × Nat) (is : List (List (ℚ × ℚ) × Nat)) :
    runSteps cfg st (i :: is) = runSteps cfg (trackerStep cfg st i.1 i.2) is := rfl

theorem runEmpty_cons (cfg : TrackerCfg) (st : TrackerState) (f : Nat) (fs : List Nat) :
    runEmpty cfg st (f :: fs) = runEmpty cfg (trackerStep cfg st [] f) fs := rfl

theorem trackerInit_inv : TrackerInv trackerInit := by
  constructor
  · exact List.Pairwise.nil
  · intro i hi
    simp [idsOf, trackerInit] at hi

theorem runSteps_inv (cfg : TrackerCfg) (inputs : List (List (ℚ × ℚ) × Nat)) :
    ∀ st, TrackerInv st → TrackerInv (runSteps cfg st inputs) := by
  induction inputs with
  | nil => intro st h; exact h
  | cons i is ih =>
      intro st h
      rw [runSteps_cons]
      exact ih _ (trackerStep_inv cfg st i.1 i.2 h)

theorem runSteps_nextId_mono (cfg : TrackerCfg) (inputs : List (List (ℚ × ℚ) × Nat)) :
    ∀ st, st.nextId ≤ (runSteps cfg st inputs).nextId := by
  induction inputs with
  | nil => intro st; exact le_refl _
  | cons i is ih =>
      intro st
      rw [runSteps_cons]
      exact le_trans (trackerStep_nextId_mono cfg st i.1 i.2) (ih _)

theorem runSteps_no_reuse (cfg : TrackerCfg) (inputs : List (List (ℚ × ℚ) × Nat)) :
    ∀ st tid, tid ∉ idsOf st → tid < st.nextId → tid ∉ idsOf (runSteps cfg st inputs) := by
  induction inputs with
  | nil => intro st tid h _; exact h
  | cons i is ih =>
      intro st tid hout hlt
      rw [runSteps_cons]
      refine ih _ tid ?_ (lt_of_lt_of_le hlt (trackerStep_nextId_mono cfg st i.1 i.2))
      intro hin
      simp only [idsOf] at hin
      obtain ⟨t', ht', hid⟩ := List.mem_map.mp hin
      rcases trackerStep_mem cfg st i.1 i.2 t' ht' with hmem | hge
      · rw [hid] at hmem
        exact hout hmem
      · rw [hid] at hge
        omega

/-- Claim C2 (confirmed): next_id starts at 1, the live track ids after any
run from the initial state are pairwise distinct, next_id never decreases,
and an id that is absent from the live set while lying below next_id (in
particular the id of any deleted track) never reappears in any
continuation of the run. -/
theorem tracker_ids_unique (cfg : TrackerCfg) (pre suf : List (List (ℚ × ℚ) × Nat))
    (tid : Nat) (h1 : tid ∉ idsOf (runSteps cfg trackerInit pre))
    (h2 : tid < (runSteps cfg trackerInit pre).nextId) :
    trackerInit.nextId = 1 ∧
      (idsOf (runSteps cfg trackerInit (pre ++ suf))).Pairwise (· ≠ ·) ∧
      (runSteps cfg trackerInit pre).nextId ≤
        (runSteps cfg trackerInit (pre ++ suf)).nextId ∧
      tid ∉ idsOf (runSteps cfg trackerInit (pre ++ suf)) := by
  have hsplit : runSteps cfg trackerInit (pre ++ suf) =
      runSteps cfg (runSteps cfg trackerInit pre) suf := by
    unfold runSteps
    rw [List.foldl_append]
  refine ⟨rfl, ?_, ?_, ?_⟩
  · have hinv := runSteps_inv cfg (pre ++ suf) trackerInit trackerInit_inv
    exact hinv.1.imp (fun hlt => Nat.ne_of_lt hlt)
  · rw [hsplit]
    exact runSteps_nextId_mono cfg suf _
  · rw [hsplit]
    exact runSteps_no_reuse cfg suf _ tid h1 h2

/-- Witness for C2 at a concrete one-step continuation. -/
theorem tracker_ids_unique_witness :
    trackerInit.nextId = 1 ∧
      (idsOf (runSteps cfgDefault trackerInit ([] ++ [([(0, 1)], 0)]))).Pairwise (· ≠ ·) ∧
      (runSteps cfgDefault trackerInit []).nextId ≤
        (runSteps cfgDefault trackerInit ([] ++ [([(0, 1)], 0)])).nextId ∧
      0 ∉ idsOf (runSteps cfgDefault trackerInit ([] ++ [([(0, 1)], 0)])) :=
  tracker_ids_unique cfgDefault [] [([(0, 1)], 0)] 0
    (by simp [runSteps, idsOf, trackerInit])
    (by simp [runSteps, trackerInit])

/- ------------------------------------------------------------------ -/
/- Claim C4: death bound after detections cease.                        -/
/- ------------------------------------------------------------------ -/

theorem runEmpty_misses (cfg : TrackerCfg) :
    ∀ (frames : List Nat) (st : TrackerState) (t' : Track),
      TrackerInv st → t' ∈ (runEmpty cfg st frames).tracks → t'.id < st.nextId →
      ∃ t ∈ st.tracks, t.id = t'.id ∧ t.misses + frames.length ≤ t'.misses := by
  intro frames
  induction frames with
  | nil =>
      intro st t' _ ht' _
      exact ⟨t', ht', rfl, by simp⟩
  | cons f fs ih =>
      intro st t' hinv ht' hlt
      rw [runEmpty_cons] at ht'
      have hinv1 := trackerStep_inv cfg st [] f hinv
      have hlt1 : t'.id < (trackerStep cfg st [] f).nextId :=
        lt_of_lt_of_le hlt (trackerStep_nextId_mono cfg st [] f)
      obtain ⟨t1, ht1, hid1, hm1⟩ := ih (trackerStep cfg st [] f) t' hinv1 ht' hlt1
      obtain ⟨t, ht, hid, hm⟩ := trackerStep_empty cfg st f t1 ht1 (by rw [hid1]; exact hlt)
      refine ⟨t, ht, by rw [hid, hid1], ?_⟩
      simp only [List.length_cons]
      omega

theorem runEmpty_last_misses (cfg : TrackerCfg) :
    ∀ (frames : List Nat) (st : TrackerState), frames ≠ [] →
      ∀ t ∈ (runEmpty cfg st frames).tracks, t.misses ≤ cfg.deathFrames := by
  intro frames
  induction frames with
  | nil => intro st h; exact absurd rfl h
  | cons f fs ih =>
      intro st _ t ht
      cases fs with
      | nil =>
          rw [runEmpty_cons] at ht
          exact trackerStep_misses_le cfg st [] f t ht
      | cons g gs =>
          rw [runEmpty_cons] at ht
          exact ih (trackerStep cfg st [] f) (by simp) t ht

/-- Claim C4 (amended): once detections cease, every track that was active
at the cessation point is removed within at most death_frames + 1
subsequent frames (with empty detection lists its miss counter grows by one
per frame and removal fires only when misses strictly exceed death_frames,
so death_frames empty frames are survivable and the claimed death_frames
bound is off by one). -/
theorem track_death_bound (cfg : TrackerCfg) (past : List (List (ℚ × ℚ) × Nat))
    (frames : List Nat) (tid : Nat) (hlen : cfg.deathFrames + 1 ≤ frames.length)
    (hmem : tid ∈ idsOf (runSteps cfg trackerInit past)) :
    tid ∉ idsOf (runEmpty cfg (runSteps cfg trackerInit past) frames) := by
  intro hcon
  have hinv : TrackerInv (runSteps cfg trackerInit past) :=
    runSteps_inv cfg past trackerInit trackerInit_inv
  have hlt : tid < (runSteps cfg trackerInit past).nextId := hinv.2 tid hmem
  simp only [idsOf] at hcon
  obtain ⟨t', ht', hid⟩ := List.mem_map.mp hcon
  obtain ⟨t, _, _, hm⟩ := runEmpty_misses cfg frames _ t' hinv ht' (by rw [hid]; exact hlt)
  have hne : frames ≠ [] := by
    intro h0
    rw [h0] at hlen
    simp at hlen
  have hub : t'.misses ≤ cfg.deathFrames := runEmpty_last_misses cfg frames _ hne t' ht'
  omega

set_option maxHeartbeats 3200000 in
/-- Claim C4 counterexample: with death_frames = 2 (confidence-based
removal disabled), a track promoted after two detection frames is still
alive after two detection-free frames, contradicting removal within at
most death_frames frames; it dies only on the third empty frame. -/
theorem track_death_bound_counterexample :
    1 ∈ idsOf (runEmpty cfgFastBirth
      (runSteps cfgFastBirth trackerInit [([(0, 1)], 1), ([(0, 1)], 2)]) [3, 4]) := by
  norm_num [cfgFastBirth, runSteps, runEmpty, trackerStep, trackerInit, idsOf, predictTrack,
    qMat, associate, bestDet, unusedIndices, updateAssigned, kalmanUpdate, pendingMatchPhase,
    tryMatchPending, promoteLoop, mkTrack, pendingConfidence, trackConfidence, pruneTrack,
    agePrune, circDist, wrapDeg, wrap360, fmod, clip, List.lookup, List.enum, List.enumFrom]

set_option maxHeartbeats 3200000 in
/-- Witness for the amended C4: with death_frames = 0 the same track is
gone after one empty frame. -/
theorem track_death_bound_witness :
    1 ∉ idsOf (runEmpty cfgFastDeath
      (runSteps cfgFastDeath trackerInit [([(0, 1)], 1), ([(0, 1)], 2)]) [3]) :=
  track_death_bound cfgFastDeath [([(0, 1)], 1), ([(0, 1)], 2)] [3] 1
    (by norm_num [cfgFastDeath])
    (by norm_num [cfgFastDeath, runSteps, trackerStep, trackerInit, idsOf, predictTrack,
      qMat, associate, bestDet, unusedIndices, updateAssigned, kalmanUpdate,
      pendingMatchPhase, tryMatchPending, promoteLoop, mkTrack, pendingConfidence,
      trackConfidence, pruneTrack, agePrune, circDist, wrapDeg, wrap360, fmod, clip,
      List.lookup, List.enum, List.enumFrom])

/- ------------------------------------------------------------------ -/
/- Claim C6: pending tracks versus active tracks separation.           -/
/- ------------------------------------------------------------------ -/

theorem pendingMatchPhase_new_far (cfg : TrackerCfg) (tracks : List Track)
    (dets : List (ℚ × ℚ)) :
    ∀ (un : List Nat) (acc : List Pending × List Pending),
      (∀ p ∈ acc.2, ∀ t ∈ tracks, cfg.gateDeg * (3/2) < |circDist t.theta p.theta|) →
      ∀ p ∈ (un.foldl
          (fun acc detIdx =>
            let det := dets.getD detIdx (0, 0)
            if det.2 < cfg.pendingPowerThreshold then acc
            else
              match tryMatchPending cfg det.1 det.2 acc.1 with
              | some pend' => (pend', acc.2)
              | none =>
                  if tracks.any (fun tr => |circDist tr.theta det.1| ≤ cfg.gateDeg * (3/2))
                  then acc
                  else (acc.1, acc.2 ++ [{ theta := det.1, power := det.2,
                                           age := 1, hits := 1, misses := 0 }]))
          acc).2,
        ∀ t ∈ tracks, cfg.gateDeg * (3/2) < |circDist t.theta p.theta| := by
  intro un
  induction un with
  | nil => intro acc hacc; exact hacc
  | cons d rest ih =>
      intro acc hacc
      rw [List.foldl_cons]
      apply ih
      dsimp only
      split
      · exact hacc
      · split
        · next pend' heq =>
            exact hacc
        · split
          · exact hacc
          · intro p hp t htr
            rcases List.mem_append.mp hp with hold | hnew
            · exact hacc p hold t htr
            · have hpe : p = Pending.mk (dets.getD d (0, 0)).1 (dets.getD d (0, 0)).2 1 1 0 := by
                simpa using hnew
              rw [hpe]
              next hany =>
                by_contra hle
                push_neg at hle
                refine hany (List.any_eq_true.mpr ⟨t, htr, ?_⟩)
                simpa using hle

/-- Claim C6 (amended): the 1.5 x gate_deg separation between pending and
active tracks holds at pending-creation time: a new pending track is only
created from a detection whose circular distance to every currently active
track exceeds 1.5 x gate_deg.  The claimed global invariant after every
step fails because the check is not re-applied when pendings are updated or
when other pendings are promoted to tracks. -/
theorem pending_creation_separation (cfg : TrackerCfg) (tracks : List Track)
    (pending : List Pending) (unassigned : List Nat) (dets : List (ℚ × ℚ))
    (p : Pending) (hp : p ∈ (pendingMatchPhase cfg tracks pending unassigned dets).2) :
    ∀ t ∈ tracks, cfg.gateDeg * (3/2) < |circDist t.theta p.theta| :=
  pendingMatchPhase_new_far cfg tracks dets unassigned (pending, [])
    (by intro q hq; simp at hq) p hp

/-- Witness for the amended C6 at a concrete creation. -/
theorem pending_creation_separation_witness :
    cfgDefault.gateDeg * (3/2) <
      |circDist (Track.mk 1 0 0 (Mat2.mk 25 0 0 25) 0 0 0 0 0).theta
        (Pending.mk 100 1 1 1 0).theta| :=
  pending_creation_separation cfgDefault [Track.mk 1 0 0 (Mat2.mk 25 0 0 25) 0 0 0 0 0]
    [] [0] [(100, 1)] (Pending.mk 100 1 1 1 0)
    (by norm_num [pendingMatchPhase, tryMatchPending, circDist, wrapDeg, fmod, cfgDefault])
    (Track.mk 1 0 0 (Mat2.mk 25 0 0 25) 0 0 0 0 0) (by simp)

set_option maxHeartbeats 3200000 in
/-- Claim C6 counterexample: with the default configuration (gate 20), feed
a detection at 0 degrees on frame 1 and detections at 0 and 25 degrees on
frames 2 and 3.  On frame 3 the pending at 0 degrees is promoted to an
active track while the pending at 25 degrees survives, so after that step a
pending and an active track co-exist at circular distance 25, which is at
most 1.5 x gate_deg = 30. -/
theorem pending_track_separation_counterexample :
    ∃ t ∈ (runSteps cfgDefault trackerInit
        [([(0, 1)], 1), ([(0, 1), (25, 1)], 2), ([(0, 1), (25, 1)], 3)]).tracks,
      ∃ p ∈ (runSteps cfgDefault trackerInit
        [([(0, 1)], 1), ([(0, 1), (25, 1)], 2), ([(0, 1), (25, 1)], 3)]).pending,
      |circDist t.theta p.theta| ≤ cfgDefault.gateDeg * (3/2) := by
  norm_num [cfgDefault, runSteps, trackerStep, trackerInit, idsOf, predictTrack,
    qMat, associate, bestDet, unusedIndices, updateAssigned, kalmanUpdate, pendingMatchPhase,
    tryMatchPending, promoteLoop, mkTrack, pendingConfidence, trackConfidence, pruneTrack,
    agePrune, circDist, wrapDeg, wrap360, fmod, clip, List.lookup, List.enum, List.enumFrom]

/- ------------------------------------------------------------------ -/
/- Claim C5: the track-aware merge and the circular mean.              -/
/- ------------------------------------------------------------------ -/

theorem zipWith_one_mul (f : ℝ → ℝ) :
    ∀ (l : List ℝ),
      List.zipWith (fun w a => w * f a) (List.replicate l.length 1) l = l.map f := by
  intro l
  induction l with
  | nil => rfl
  | cons a t ih =>
      simp only [List.length_cons, List.replicate_succ, List.zipWith_cons_cons, one_mul,
        List.map_cons, ih]

theorem mergeGroup_eq (g : List RCand) :
    mergeGroupCode g = mergeGroupSpecUnweighted g := by
  match g with
  | [] =>
      simp only [mergeGroupCode, mergeGroupSpecUnweighted, circularMeanDeg]
      have h0 : (⟨0, 0⟩ : ℂ) = 0 := rfl
      norm_num [atan2, h0, Complex.arg_zero, rad2degR]
  | [c] => rfl
  | a :: b :: rest =>
      simp only [mergeGroupCode, mergeGroupSpecUnweighted, circularMeanDeg]
      have hlen : (List.replicate (a :: b :: rest).length (1 : ℝ)) =
          List.replicate ((a :: b :: rest).map RCand.azimuthDeg).length 1 := by
        simp
      rw [hlen, zipWith_one_mul, zipWith_one_mul, List.map_map, List.map_map]
      have hcos : ((a :: b :: rest).map
          ((fun x => Real.cos (deg2radR x)) ∘ RCand.azimuthDeg)) =
          (a :: b :: rest).map (fun c => Real.cos (deg2radR c.azimuthDeg)) := rfl
      have hsin : ((a :: b :: rest).map
          ((fun x => Real.sin (deg2radR x)) ∘ RCand.azimuthDeg)) =
          (a :: b :: rest).map (fun c => Real.sin (deg2radR c.azimuthDeg)) := rfl
      rw [hcos, hsin]
      set C := ((a :: b :: rest).map (fun c => Real.cos (deg2radR c.azimuthDeg))).sum with hC
      set S := ((a :: b :: rest).map (fun c => Real.sin (deg2radR c.azimuthDeg))).sum with hS
      have hn : (0 : ℝ) < ((a :: b :: rest).length : ℝ) := by
        simp only [List.length_cons]
        positivity
      have hkey : atan2 (S / ((a :: b :: rest).length : ℝ))
          (C / ((a :: b :: rest).length : ℝ)) = atan2 S C := by
        unfold atan2
        have hz : (⟨C / ((a :: b :: rest).length : ℝ),
            S / ((a :: b :: rest).length : ℝ)⟩ : ℂ) =
            (((((a :: b :: rest).length : ℝ))⁻¹ : ℝ) : ℂ) * ⟨C, S⟩ := by
          apply Complex.ext
          · rw [Complex.re_ofReal_mul]
            simp [div_eq_inv_mul]
          · rw [Complex.im_ofReal_mul]
            simp [div_eq_inv_mul]
        rw [hz]
        exact Complex.arg_real_mul _ (by positivity)
      by_cases hcs : C = 0 ∧ S = 0
      · simp only [hcs.1, hcs.2, if_pos (And.intro rfl rfl), zero_div]
        congr 1
        have h0 : (⟨0, 0⟩ : ℂ) = 0 := rfl
        norm_num [atan2, h0, Complex.arg_zero, rad2degR]
      · rw [if_neg hcs]
        congr 2
        rw [hkey]

/-- Claim C5 (amended): the track-aware merge replaces each multi-candidate
group with a single candidate at the UNWEIGHTED circular mean of the member
angles (circular_mean_deg with unit weights), with summed power and the
strongest member's grid index, and passes unassigned candidates through
unchanged.  The claimed confidence weighting does not happen: the code
takes plain means of the sines and cosines. -/
theorem merge_near_tracks_unweighted (tracks : List RTrack) (gate : ℝ)
    (cands : List RCand) :
    mergeCode tracks gate cands = mergeSpecUnweighted tracks gate cands := by
  unfold mergeCode mergeSpecUnweighted
  by_cases h : cands.isEmpty ∨ tracks.isEmpty
  · rw [if_pos h, if_pos h]
  · rw [if_neg h, if_neg h]
    dsimp only
    congr 1
    apply List.map_congr_left
    intro gpair _
    exact mergeGroup_eq gpair.2

theorem fmodR_eq_self (x : ℝ) (h1 : 0 ≤ x) (h2 : x < 360) : fmodR x 360 = x := by
  unfold fmodR
  have hf : ⌊x / 360⌋ = 0 := by
    rw [Int.floor_eq_zero_iff, Set.mem_Ico]
    constructor
    · exact div_nonneg h1 (by norm_num)
    · rw [div_lt_one (by norm_num : (0:ℝ) < 360)]
      exact h2
  rw [hf]
  push_cast
  ring

theorem wrap360R_eq_self (x : ℝ) (h1 : 0 ≤ x) (h2 : x < 360) : wrap360R x = x :=
  fmodR_eq_self x h1 h2

/-- Claim C5 counterexample: one active track at 0 degrees, gate 100, and
two candidates at 0 degrees (power 1) and 90 degrees (power 3).  Both join
the track's group; the code merges them at the unweighted circular mean
atan2(1/2, 1/2), i.e. 45 degrees, while the confidence-weighted circular
mean of the specification (weights the member powers 1 and 3) is
atan2(3, 1), strictly larger than 45 degrees, so the merged candidates
differ. -/
theorem merge_confidence_weighted_counterexample :
    mergeCode [RTrack.mk 1 0] 100 [RCand.mk 0 1 0, RCand.mk 90 3 1] ≠
      mergeSpecWeighted [RTrack.mk 1 0] 100 [RCand.mk 0 1 0, RCand.mk 90 3 1] := by
  have hd0 : deg2radR 0 = 0 := by simp [deg2radR]
  have hd90 : deg2radR 90 = Real.pi / 2 := by
    unfold deg2radR
    ring
  have hgrp : groupByTrack [RTrack.mk 1 0] 100 [RCand.mk 0 1 0, RCand.mk 90 3 1] =
      ([(1, [RCand.mk 0 1 0, RCand.mk 90 3 1])], []) := by
    norm_num [groupByTrack, nearestTrack, addToGroups, circDistR, wrapDegR, wrap360R, fmodR]
  have hcodemg : mergeGroupCode [RCand.mk 0 1 0, RCand.mk 90 3 1] =
      RCand.mk (wrap360R (rad2degR (Complex.arg ⟨1/2, 1/2⟩))) 4 1 := by
    simp only [mergeGroupCode]
    norm_num [hd0, hd90, Real.sin_pi_div_two, Real.cos_pi_div_two, strongestCand, atan2]
  have hspecmg : mergeGroupSpecWeighted [RCand.mk 0 1 0, RCand.mk 90 3 1] =
      RCand.mk (wrap360R (rad2degR (Complex.arg ⟨1, 3⟩))) 4 1 := by
    simp only [mergeGroupSpecWeighted, circularMeanDeg]
    norm_num [hd0, hd90, Real.sin_pi_div_two, Real.cos_pi_div_two, strongestCand, atan2]
  have hcode : mergeCode [RTrack.mk 1 0] 100 [RCand.mk 0 1 0, RCand.mk 90 3 1] =
      [RCand.mk (wrap360R (rad2degR (Complex.arg ⟨1/2, 1/2⟩))) 4 1] := by
    unfold mergeCode
    rw [if_neg (by norm_num)]
    dsimp only
    rw [hgrp]
    simp [hcodemg]
  have hspec : mergeSpecWeighted [RTrack.mk 1 0] 100 [RCand.mk 0 1 0, RCand.mk 90 3 1] =
      [RCand.mk (wrap360R (rad2degR (Complex.arg ⟨1, 3⟩))) 4 1] := by
    unfold mergeSpecWeighted
    rw [if_neg (by norm_num)]
    dsimp only
    rw [hgrp]
    simp [hspecmg]
  have hxne : (⟨1/2, 1/2⟩ : ℂ) ≠ 0 := by
    intro h
    have := congrArg Complex.re h
    norm_num at this
  have hyne : (⟨1, 3⟩ : ℂ) ≠ 0 := by
    intro h
    have := congrArg Complex.re h
    norm_num at this
  have hA0 : 0 < Complex.arg ⟨1/2, 1/2⟩ := by
    have h1 : 0 ≤ Complex.arg ⟨1/2, 1/2⟩ := Complex.arg_nonneg_iff.mpr (by norm_num)
    have h2 : Complex.arg ⟨1/2, 1/2⟩ ≠ 0 := by
      intro h
      have := Complex.arg_eq_zero_iff.mp h
      norm_num at this
    exact lt_of_le_of_ne h1 (Ne.symm h2)
  have hA2 : Complex.arg ⟨1/2, 1/2⟩ < Real.pi / 2 :=
    Complex.arg_lt_pi_div_two_iff.mpr (Or.inl (by norm_num))
  have hB0 : 0 < Complex.arg ⟨1, 3⟩ := by
    have h1 : 0 ≤ Complex.arg ⟨1, 3⟩ := Complex.arg_nonneg_iff.mpr (by norm_num)
    have h2 : Complex.arg ⟨1, 3⟩ ≠ 0 := by
      intro h
      have := Complex.arg_eq_zero_iff.mp h
      norm_num at this
    exact lt_of_le_of_ne h1 (Ne.symm h2)
  have hB2 : Complex.arg ⟨1, 3⟩ < Real.pi / 2 :=
    Complex.arg_lt_pi_div_two_iff.mpr (Or.inl (by norm_num))
  have hpi : (0 : ℝ) < 180 / Real.pi := by positivity
  have hdegbound : ∀ a : ℝ, 0 < a → a < Real.pi / 2 → 0 ≤ rad2degR a ∧ rad2degR a < 360 := by
    intro a ha1 ha2
    unfold rad2degR
    constructor
    · positivity
    · have h3 : a * (180 / Real.pi) < (Real.pi / 2) * (180 / Real.pi) :=
        mul_lt_mul_of_pos_right ha2 hpi
      have h4 : (Real.pi / 2) * (180 / Real.pi) = 90 := by
        field_simp
        ring
      rw [h4] at h3
      linarith
  have hne : Complex.arg ⟨1/2, 1/2⟩ ≠ Complex.arg ⟨1, 3⟩ := by
    intro heq
    have h2 := (Complex.arg_eq_arg_iff hxne hyne).mp heq
    rw [← Complex.ofReal_div, Complex.ext_iff] at h2
    obtain ⟨hre, him⟩ := h2
    rw [Complex.re_ofReal_mul] at hre
    rw [Complex.im_ofReal_mul] at him
    -- hre : r * (1/2) = 1, him : r * (1/2) = 3
    norm_num at hre him
    linarith
  intro heq
  rw [hcode, hspec] at heq
  have hhead : (RCand.mk (wrap360R (rad2degR (Complex.arg ⟨1/2, 1/2⟩))) 4 1) =
      (RCand.mk (wrap360R (rad2degR (Complex.arg ⟨1, 3⟩))) 4 1) := by
    injection heq
  have haz := congrArg RCand.azimuthDeg hhead
  simp only at haz
  obtain ⟨hA3, hA4⟩ := hdegbound _ hA0 hA2
  obtain ⟨hB3, hB4⟩ := hdegbound _ hB0 hB2
  rw [wrap360R_eq_self _ hA3 hA4, wrap360R_eq_self _ hB3 hB4] at haz
  unfold rad2degR at haz
  exact hne (mul_right_cancel₀ (ne_of_gt hpi) haz)
